import Mathlib

/-!
Shallow embedding of the `mazes` repository (Rust) and verification of its
specification claims.

The embedding translates, from the source:
  * `src/map.rs`   — `Cell`, `Map`, neighbor queries, `open_path_between`,
                     `recursive_backtracking`, `randomized_prims`;
  * `src/search.rs` — `breadth_first`;
  * `src/main.rs`  — the historical duplicate of `open_path_between`
                     (which lacks the adjacency check of the `map.rs` one).

Modelling conventions:
  * `usize` values become `Nat`.
  * Rust panics become `Option`/`Except` error results; where a claim speaks
    about the state at the moment of a panic, the function returns the state
    it had accumulated when the panic fired.
  * `rand::thread_rng().gen_range(0, n)` becomes `rng k % n` for an injected
    source `rng : Nat → Nat` and a per-call counter `k` threaded through the
    state; `gen_range(0, 0)` panics in the `rand` crate and is modelled as
    `none`.
  * The `Vec<Cell>` terrain becomes `List Cell`; `Vec::pop`/`push` on the
    search frontier act on the head of the list (last-in first-out, exactly
    as in the source).
  * Loops become step functions iterated with fuel; the fuel bounds used in
    the wrappers are proved sufficient below (claim C9).
-/

namespace Mazes

/-- A grid coordinate `(row, column)`. -/
abbrev Coord := Nat × Nat

/-- `Cell` from `src/map.rs`: visited marker, four directional passage
flags, and the traversal index recorded during generation. -/
structure Cell where
  visited : Bool
  n : Bool
  s : Bool
  e : Bool
  w : Bool
  traversal_index : Nat
deriving DecidableEq, Repr

/-- `Cell::new` from `src/map.rs`: all passages closed, unvisited. -/
def Cell.new : Cell :=
  { visited := false, n := false, s := false, e := false, w := false,
    traversal_index := 0 }

/-- `Cell::is_completely_open` from `src/map.rs`. -/
def Cell.is_completely_open (c : Cell) : Bool :=
  c.n && c.s && c.e && c.w

/-- `Map` from `src/map.rs`: dimensions `(rows, cols)` and the row-major
1-D terrain. -/
structure Map where
  dimensions : Nat × Nat
  terrain : List Cell
deriving DecidableEq, Repr

namespace Map

/-- The map as first constructed inside `Map::new` (`src/map.rs` line 79):
`rows * cols` fresh cells, before `build_maze` runs. -/
def init (r c : Nat) : Map :=
  { dimensions := (r, c), terrain := List.replicate (r * c) Cell.new }

/-- Row-major flat index of cell `(i, j)`, as used by `get_cell` /
`get_cell_mut` in `src/map.rs`. -/
def flat (m : Map) (i j : Nat) : Nat :=
  i * m.dimensions.2 + j

/-- `Map::get_cell` from `src/map.rs` (the out-of-range panic is modelled by
a default cell; all verified uses are in bounds). -/
def get_cell (m : Map) (i j : Nat) : Cell :=
  m.terrain.getD (m.flat i j) Cell.new

/-- Overwriting the cell at `(i, j)`, the effect of a write through
`Map::get_cell_mut`. -/
def set_cell (m : Map) (i j : Nat) (cl : Cell) : Map :=
  { m with terrain := m.terrain.set (m.flat i j) cl }

/-- Effect of `self.get_cell_mut(i, j).visited = true` (`src/map.rs`). -/
def mark_visited (m : Map) (i j : Nat) : Map :=
  m.set_cell i j { m.get_cell i j with visited := true }

/-- Effect of `self.get_cell_mut(i, j).traversal_index = t` (`src/map.rs`). -/
def set_traversal (m : Map) (i j : Nat) (t : Nat) : Map :=
  m.set_cell i j { m.get_cell i j with traversal_index := t }

/-- Effect of `self.get_cell_mut(i, j).n = true`. -/
def write_n (m : Map) (i j : Nat) : Map :=
  m.set_cell i j { m.get_cell i j with n := true }

/-- Effect of `self.get_cell_mut(i, j).s = true`. -/
def write_s (m : Map) (i j : Nat) : Map :=
  m.set_cell i j { m.get_cell i j with s := true }

/-- Effect of `self.get_cell_mut(i, j).e = true`. -/
def write_e (m : Map) (i j : Nat) : Map :=
  m.set_cell i j { m.get_cell i j with e := true }

/-- Effect of `self.get_cell_mut(i, j).w = true`. -/
def write_w (m : Map) (i j : Nat) : Map :=
  m.set_cell i j { m.get_cell i j with w := true }

/-- `Map::get_neighbor_indices` from `src/map.rs`: top, bottom, left, right,
respecting the borders (`i < dimensions.0 - 1` is the source's guard,
with Rust `usize` and Lean `Nat` subtraction agreeing on it whenever the
function is actually reached, i.e. on nonempty maps). -/
def get_neighbor_indices (m : Map) (i j : Nat) : List Coord :=
  (if 0 < i then [(i - 1, j)] else []) ++
  (if i < m.dimensions.1 - 1 then [(i + 1, j)] else []) ++
  (if 0 < j then [(i, j - 1)] else []) ++
  (if j < m.dimensions.2 - 1 then [(i, j + 1)] else [])

/-- `Map::get_unvisited_neighbor_indices` from `src/map.rs`. -/
def get_unvisited_neighbor_indices (m : Map) (i j : Nat) : List Coord :=
  (m.get_neighbor_indices i j).filter (fun p => !(m.get_cell p.1 p.2).visited)

/-- `Map::get_visited_neighbor_indices` from `src/map.rs`. -/
def get_visited_neighbor_indices (m : Map) (i j : Nat) : List Coord :=
  (m.get_neighbor_indices i j).filter (fun p => (m.get_cell p.1 p.2).visited)

/-- The four conditional paired writes in the body of `open_path_between`
(`src/map.rs` lines 254-273; the same four `if` blocks also form the whole
body of the `src/main.rs` duplicate). -/
def open_path_writes (m : Map) (toc fro : Coord) : Map :=
  let m := if toc.1 < fro.1 then (m.write_s toc.1 toc.2).write_n fro.1 fro.2 else m
  let m := if fro.1 < toc.1 then (m.write_n toc.1 toc.2).write_s fro.1 fro.2 else m
  let m := if toc.2 < fro.2 then (m.write_e toc.1 toc.2).write_w fro.1 fro.2 else m
  let m := if fro.2 < toc.2 then (m.write_w toc.1 toc.2).write_e fro.1 fro.2 else m
  m

/-- `Map::open_path_between` from `src/map.rs`: the adjacency check is the
first statement, so the panic (modelled as `Except.error`) fires before any
write and the returned state is the untouched input. -/
def open_path_between (m : Map) (toc fro : Coord) : Map × Except String Unit :=
  if (m.get_neighbor_indices toc.1 toc.2).contains fro then
    (m.open_path_writes toc fro, Except.ok ())
  else
    (m, Except.error "Attempting to open a path between non-adjacent cells")

end Map

/-- The historical duplicate of `open_path_between` in `src/main.rs`
(lines 261-282): identical four conditional paired writes, but **no**
adjacency check. -/
def MainRs.open_path_between (m : Map) (toc fro : Coord) : Map :=
  m.open_path_writes toc fro

/-! ## Randomness

`rand::thread_rng()` is modelled as an injected stream `rng : Nat → Nat`;
the `k`-th call of `gen_range(0, n)` yields `rng k % n`.  Every sequence of
in-range draws is realised by some stream, and a fixed stream makes each
run deterministic. -/

/-- The randomness source. -/
abbrev Rng := Nat → Nat

/-- `rng.gen_range(0, n)` for the `k`-th draw of the stream.  The `rand`
crate panics when the range is empty (`n = 0`); this is the `none` case. -/
def gen_range (rng : Rng) (k n : Nat) : Option Nat :=
  if n = 0 then none else some (rng k % n)

/-- Outcome of one loop iteration of a generator: continue with a new
state, leave the loop with a final state, or hit a Rust panic. -/
inductive StepRes (σ : Type) where
  | next : σ → StepRes σ
  | done : σ → StepRes σ
  | panicked : StepRes σ
deriving DecidableEq, Repr

/-! ## `recursive_backtracking` (`src/map.rs` lines 123-180)

The `'outer` loop becomes `btStep`; the `'inner` backtracking loop becomes
`backtrack_pop`.  The `each_iteration` callback is `None` (as passed by
`build_maze`), so `iteration` stays `0` and each outer iteration writes
`traversal_index = 0` for the current cell. -/

/-- The `'inner` loop of `recursive_backtracking`: pop the stack until a
cell that is not completely open appears (returning it together with the
remaining stack), or the stack empties.  The top of the Rust `Vec` stack is
the head of the list. -/
def backtrack_pop (m : Map) : List Coord → Option (Coord × List Coord)
  | [] => none
  | c :: rest =>
    if (m.get_cell c.1 c.2).is_completely_open then backtrack_pop m rest
    else some (c, rest)

/-- The state of the `'outer` loop of `recursive_backtracking`: the map,
`current_indices`, the backtracking stack and the randomness counter. -/
structure BTState where
  map : Map
  current : Coord
  stack : List Coord
  ctr : Nat
deriving DecidableEq, Repr

/-- One iteration of the `'outer` loop of `recursive_backtracking`
(`src/map.rs` lines 135-179). -/
def btStep (rng : Rng) (st : BTState) : StepRes BTState :=
  let m := st.map.set_traversal st.current.1 st.current.2 0
  let pot := m.get_unvisited_neighbor_indices st.current.1 st.current.2
  if pot.isEmpty then
    match backtrack_pop m st.stack with
    | none => .done { st with map := m, stack := [] }
    | some (c, rest) => .next { st with map := m, current := c, stack := rest }
  else
    match gen_range rng st.ctr pot.length with
    | none => .panicked
    | some idx =>
      let fro := pot.getD idx (0, 0)
      let toc := st.current
      let m := (m.open_path_between toc fro).1
      let m := m.mark_visited fro.1 fro.2
      .next { map := m, current := fro, stack := fro :: st.stack,
              ctr := st.ctr + 1 }

/-- Iterate a loop body with fuel: `next` means the fuel ran out while the
loop was still going. -/
def stepRun {σ : Type} (step : σ → StepRes σ) : Nat → σ → StepRes σ
  | 0, st => .next st
  | fuel + 1, st =>
    match step st with
    | .next st' => stepRun step fuel st'
    | r => r

/-- The state after `n` loop iterations (stopping early at loop exit). -/
def stepIter {σ : Type} (step : σ → StepRes σ) : Nat → σ → σ
  | 0, st => st
  | n + 1, st =>
    match step st with
    | .next st' => stepIter step n st'
    | _ => st

/-- Iterate `btStep` with fuel, stopping at loop exit (or panic). -/
def btRun (rng : Rng) : Nat → BTState → StepRes BTState :=
  stepRun (btStep rng)

/-- The state of `recursive_backtracking` right after the random start cell
has been picked and marked visited (`src/map.rs` lines 127-132); defined
for `r, c ≥ 1` (otherwise `get_random_grid_indices` panics first). -/
def btInit (rng : Rng) (r c : Nat) : BTState :=
  let start : Coord := (rng 0 % r, rng 1 % c)
  { map := (Map.init r c).mark_visited start.1 start.2,
    current := start, stack := [], ctr := 2 }

/-- `Map::recursive_backtracking` run on a map `m` of dimensions `(r, c)`
(`src/map.rs` lines 123-180), with `each_iteration = None`.  The two
initial draws are `get_random_grid_indices`; `none` models a panic (empty
random range when a dimension is `0`; the fuel `2*r*c + 1` is proved
sufficient below, so fuel exhaustion never occurs). -/
def Map.recursive_backtracking (rng : Rng) (m : Map) : Option Map :=
  match gen_range rng 0 m.dimensions.1, gen_range rng 1 m.dimensions.2 with
  | some i, some j =>
    let m0 := m.mark_visited i j
    match btRun rng (2 * m.dimensions.1 * m.dimensions.2 + 1)
        { map := m0, current := (i, j), stack := [], ctr := 2 } with
    | .done st => some st.map
    | _ => none
  | _, _ => none

/-- `Map::new` from `src/map.rs` (lines 73-86): build the fresh terrain and
immediately run `build_maze(Generator::Backtracking)` on it. -/
def Map.new (rng : Rng) (r c : Nat) : Option Map :=
  (Map.init r c).recursive_backtracking rng

/-! ## `randomized_prims` (`src/map.rs` lines 186-244) -/

/-- The state of the `while !frontier.is_empty()` loop of
`randomized_prims`. -/
structure PrimsState where
  map : Map
  current : Coord
  frontier : List Coord
  ctr : Nat
deriving DecidableEq, Repr

/-- One iteration of the `randomized_prims` loop (`src/map.rs` lines
204-243).  `potential_paths[gen_range(0, len)]` panics when the list of
visited neighbors is empty (empty random range); new frontier cells are
appended in order, skipping those already present. -/
def primsStep (rng : Rng) (st : PrimsState) : StepRes PrimsState :=
  if st.frontier.isEmpty then .done st
  else
    let m := st.map.set_traversal st.current.1 st.current.2 0
    match gen_range rng st.ctr st.frontier.length with
    | none => .panicked
    | some ridx =>
      let current := st.frontier.getD ridx (0, 0)
      let frontier := st.frontier.eraseIdx ridx
      let m := m.mark_visited current.1 current.2
      let pot := m.get_visited_neighbor_indices current.1 current.2
      let potFront := m.get_unvisited_neighbor_indices current.1 current.2
      match gen_range rng (st.ctr + 1) pot.length with
      | none => .panicked
      | some pidx =>
        let fro := pot.getD pidx (0, 0)
        let m := (m.open_path_between current fro).1
        if frontier.isEmpty && potFront.isEmpty then
          .done { map := m, current := current, frontier := frontier,
                  ctr := st.ctr + 2 }
        else
          let frontier := potFront.foldl
            (fun acc nb => if acc.contains nb then acc else acc ++ [nb])
            frontier
          .next { map := m, current := current, frontier := frontier,
                  ctr := st.ctr + 2 }

/-- Iterate `primsStep` with fuel, stopping at loop exit (or panic). -/
def primsRun (rng : Rng) : Nat → PrimsState → StepRes PrimsState :=
  stepRun (primsStep rng)

/-- The state of `randomized_prims` right after the random start cell has
been picked, marked visited, and its neighbors put into the frontier
(`src/map.rs` lines 190-201); defined for `r, c ≥ 1`. -/
def primsInit (rng : Rng) (r c : Nat) : PrimsState :=
  let start : Coord := (rng 0 % r, rng 1 % c)
  let m := (Map.init r c).mark_visited start.1 start.2
  { map := m, current := start,
    frontier := m.get_neighbor_indices start.1 start.2, ctr := 2 }

/-- `Map::randomized_prims` run on a map `m` of dimensions `(r, c)`
(`src/map.rs` lines 186-244), with `each_iteration = None`.  The fuel
`r*c + 1` is proved sufficient below. -/
def Map.randomized_prims (rng : Rng) (m : Map) : Option Map :=
  match gen_range rng 0 m.dimensions.1, gen_range rng 1 m.dimensions.2 with
  | some i, some j =>
    let m0 := m.mark_visited i j
    match primsRun rng (m.dimensions.1 * m.dimensions.2 + 1)
        { map := m0, current := (i, j),
          frontier := m0.get_neighbor_indices i j, ctr := 2 } with
    | .done st => some st.map
    | _ => none
  | _, _ => none

/-! ## `breadth_first` (`src/search.rs`)

The `came_from` `HashMap` is an association list (insert = cons, only ever
performed after a failed `contains_key`).  The `frontier` `Vec` pushes and
pops at the head of the list, i.e. at the Rust `Vec`'s tail. -/

/-- The `came_from` mapping. -/
abbrev CameFrom := List (Coord × Coord)

/-- `came_from.contains_key(c)` / `came_from[&c]`. -/
def cfLookup (cf : CameFrom) (c : Coord) : Option Coord :=
  (cf.find? (fun p => p.1 == c)).map (fun p => p.2)

/-- The open-passage neighbors collected in the loop body of
`breadth_first` (`src/search.rs` lines 20-33), in source order `n, s, e, w`.
`current.0 - 1` is `Nat` subtraction; the flags of a maze keep indices
positive exactly where the source relies on it. -/
def openNeighbors (m : Map) (c : Coord) : List Coord :=
  let cell := m.get_cell c.1 c.2
  (if cell.n then [(c.1 - 1, c.2)] else []) ++
  (if cell.s then [(c.1 + 1, c.2)] else []) ++
  (if cell.e then [(c.1, c.2 + 1)] else []) ++
  (if cell.w then [(c.1, c.2 - 1)] else [])

/-- Body of the `for neighbor in neighbors` loop (`src/search.rs` lines
35-41): push the neighbor and record where it came from, unless it already
has a `came_from` entry. -/
def cfStep (cur : Coord) (acc : List Coord × CameFrom) (nb : Coord) :
    List Coord × CameFrom :=
  if (cfLookup acc.2 nb).isSome then acc
  else (nb :: acc.1, (nb, cur) :: acc.2)

/-- One iteration of the search loop (`src/search.rs` lines 14-46):
pop `current_indices`, then push / record every open neighbor that has no
`came_from` entry yet.  `none` means the frontier was empty (loop exit). -/
def searchStep (m : Map) :
    List Coord × CameFrom → Option (List Coord × CameFrom)
  | ([], _) => none
  | (cur :: rest, cf) =>
    some ((openNeighbors m cur).foldl (cfStep cur) (rest, cf))

/-- Iterate `searchStep` with fuel until the frontier empties, returning
the final `came_from`; `none` on fuel exhaustion (the fuel used by
`breadth_first` is proved sufficient below). -/
def searchRun (m : Map) : Nat → List Coord × CameFrom → Option CameFrom
  | 0, _ => none
  | fuel + 1, st =>
    match searchStep m st with
    | none => some st.2
    | some st' => searchRun m fuel st'

/-- The reconstruction loop of `breadth_first` (`src/search.rs` lines
49-60): walk back from `to` through `came_from` until `from`, pushing the
cells in walking order (no reversal).  A missing key is the Rust
`came_from[&current_indices]` panic, modelled as `none`; the fuel covers
every terminating run. -/
def reconstruct (cf : CameFrom) (fro : Coord) : Nat → Coord → Option (List Coord)
  | 0, _ => none
  | fuel + 1, cur =>
    if cur = fro then some [fro]
    else
      match cfLookup cf cur with
      | none => none
      | some p => (reconstruct cf fro fuel p).map (fun l => cur :: l)

/-- `breadth_first` from `src/search.rs`: the exploration loop followed by
path reconstruction.  `none` models a panic (or, for the exploration loop,
fuel exhaustion, which the bounds below rule out for well-formed mazes). -/
def breadth_first (m : Map) (fro toc : Coord) : Option (List Coord) :=
  match searchRun m (m.dimensions.1 * m.dimensions.2 + 1)
      ([fro], [(fro, fro)]) with
  | none => none
  | some cf => reconstruct cf fro (cf.length + 1) toc

/-! ## Basic predicates and index arithmetic -/

namespace Map

/-- Flat access to the terrain (row-major), the common core of all
`get_cell` reasoning. -/
def getC (m : Map) (d : Nat) : Cell :=
  m.terrain.getD d Cell.new

/-- Well-formedness: the terrain has exactly `rows * cols` cells (true of
every map the program ever builds). -/
def WF (m : Map) : Prop :=
  m.terrain.length = m.dimensions.1 * m.dimensions.2

/-- `(i, j)` lies inside the grid. -/
def inB (m : Map) (p : Coord) : Prop :=
  p.1 < m.dimensions.1 ∧ p.2 < m.dimensions.2

instance (m : Map) (p : Coord) : Decidable (m.inB p) := by
  unfold inB; infer_instance

/-- The cell at `p` is marked visited. -/
def visitedAt (m : Map) (p : Coord) : Prop :=
  (m.get_cell p.1 p.2).visited = true

instance (m : Map) (p : Coord) : Decidable (m.visitedAt p) := by
  unfold visitedAt; infer_instance

end Map

theorem flat_lt {i j r c : Nat} (hi : i < r) (hj : j < c) :
    i * c + j < r * c := by
  calc i * c + j < i * c + c := by omega
    _ = (i + 1) * c := by ring
    _ ≤ r * c := Nat.mul_le_mul_right c hi

theorem flat_inj {i j i' j' c : Nat} (hj : j < c) (hj' : j' < c)
    (h : i * c + j = i' * c + j') : i = i' ∧ j = j' := by
  have hc : 0 < c := Nat.lt_of_le_of_lt (Nat.zero_le j) hj
  have hmod : j = j' := by
    have h2 := congrArg (fun x => x % c) h
    simpa [Nat.mul_add_mod', Nat.mod_eq_of_lt hj, Nat.mod_eq_of_lt hj'] using h2
  subst hmod
  have hmul : i * c = i' * c := by omega
  exact ⟨Nat.eq_of_mul_eq_mul_right hc hmul, rfl⟩

namespace Map

theorem get_cell_eq_getC (m : Map) (i j : Nat) :
    m.get_cell i j = m.getC (m.flat i j) := rfl

@[simp] theorem dimensions_set_cell (m : Map) (i j : Nat) (cl : Cell) :
    (m.set_cell i j cl).dimensions = m.dimensions := rfl

@[simp] theorem length_set_cell (m : Map) (i j : Nat) (cl : Cell) :
    (m.set_cell i j cl).terrain.length = m.terrain.length :=
  List.length_set ..

@[simp] theorem flat_set_cell (m : Map) (i j : Nat) (cl : Cell) :
    (m.set_cell i j cl).flat = m.flat := rfl

theorem getC_set_cell (m : Map) (i j : Nat) (cl : Cell) (d : Nat) :
    (m.set_cell i j cl).getC d =
      if m.flat i j = d ∧ d < m.terrain.length then cl else m.getC d := by
  unfold getC set_cell
  simp only [List.getD_eq_getElem?_getD, List.getElem?_set]
  by_cases hEq : m.flat i j = d
  · by_cases hLen : d < m.terrain.length
    · simp [hEq, hLen]
    · have hnone : m.terrain[d]? = none :=
        List.getElem?_eq_none (Nat.le_of_not_lt hLen)
      simp [hEq, hLen, hnone]
  · simp [hEq]

theorem WF.set_cell {m : Map} (h : m.WF) (i j : Nat) (cl : Cell) :
    (m.set_cell i j cl).WF := by
  unfold WF at h ⊢; simpa using h

/-- In a well-formed map, the flat index of an in-bounds coordinate is a
valid terrain index. -/
theorem flat_lt_length {m : Map} (h : m.WF) {p : Coord} (hp : m.inB p) :
    m.flat p.1 p.2 < m.terrain.length := by
  rw [h]; exact flat_lt hp.1 hp.2

theorem getC_mark_visited (m : Map) (i j : Nat) (d : Nat) :
    (m.mark_visited i j).getC d =
      if m.flat i j = d ∧ d < m.terrain.length
      then { m.getC d with visited := true } else m.getC d := by
  unfold mark_visited
  rw [getC_set_cell]
  split
  · rename_i h; rw [get_cell_eq_getC, h.1]
  · rfl

theorem getC_set_traversal (m : Map) (i j t : Nat) (d : Nat) :
    (m.set_traversal i j t).getC d =
      if m.flat i j = d ∧ d < m.terrain.length
      then { m.getC d with traversal_index := t } else m.getC d := by
  unfold set_traversal
  rw [getC_set_cell]
  split
  · rename_i h; rw [get_cell_eq_getC, h.1]
  · rfl

theorem getC_write_n (m : Map) (i j : Nat) (d : Nat) :
    (m.write_n i j).getC d =
      if m.flat i j = d ∧ d < m.terrain.length
      then { m.getC d with n := true } else m.getC d := by
  unfold write_n
  rw [getC_set_cell]
  split
  · rename_i h; rw [get_cell_eq_getC, h.1]
  · rfl

theorem getC_write_s (m : Map) (i j : Nat) (d : Nat) :
    (m.write_s i j).getC d =
      if m.flat i j = d ∧ d < m.terrain.length
      then { m.getC d with s := true } else m.getC d := by
  unfold write_s
  rw [getC_set_cell]
  split
  · rename_i h; rw [get_cell_eq_getC, h.1]
  · rfl

theorem getC_write_e (m : Map) (i j : Nat) (d : Nat) :
    (m.write_e i j).getC d =
      if m.flat i j = d ∧ d < m.terrain.length
      then { m.getC d with e := true } else m.getC d := by
  unfold write_e
  rw [getC_set_cell]
  split
  · rename_i h; rw [get_cell_eq_getC, h.1]
  · rfl

theorem getC_write_w (m : Map) (i j : Nat) (d : Nat) :
    (m.write_w i j).getC d =
      if m.flat i j = d ∧ d < m.terrain.length
      then { m.getC d with w := true } else m.getC d := by
  unfold write_w
  rw [getC_set_cell]
  split
  · rename_i h; rw [get_cell_eq_getC, h.1]
  · rfl

end Map

/-! ## Neighbor characterisation -/

theorem mem_ite_singleton {b : Prop} [Decidable b] {x p : Coord} :
    (p ∈ if b then [x] else []) ↔ b ∧ p = x := by
  split <;> simp_all

namespace Map

theorem mem_get_neighbor_indices (m : Map) (i j : Nat) (p : Coord) :
    p ∈ m.get_neighbor_indices i j ↔
      (0 < i ∧ p = (i - 1, j)) ∨ (i < m.dimensions.1 - 1 ∧ p = (i + 1, j)) ∨
      (0 < j ∧ p = (i, j - 1)) ∨ (j < m.dimensions.2 - 1 ∧ p = (i, j + 1)) := by
  unfold get_neighbor_indices
  simp [mem_ite_singleton]

theorem flat_succ_row (m : Map) (i j : Nat) :
    m.flat (i + 1) j = m.flat i j + m.dimensions.2 := by
  unfold flat; ring

theorem flat_succ_col (m : Map) (i j : Nat) :
    m.flat i (j + 1) = m.flat i j + 1 := by
  unfold flat; ring

/-! ## Passage symmetry -/

/-- The symmetry invariant of the spec: for each pair of vertically
adjacent cells the `s`/`n` flags agree, for each pair of horizontally
adjacent cells the `e`/`w` flags agree. -/
def symmetricOpen (m : Map) : Prop :=
  ∀ i, i < m.dimensions.1 → ∀ j, j < m.dimensions.2 →
    (i + 1 < m.dimensions.1 →
      (m.get_cell i j).s = (m.get_cell (i + 1) j).n) ∧
    (j + 1 < m.dimensions.2 →
      (m.get_cell i j).e = (m.get_cell i (j + 1)).w)

instance (m : Map) : Decidable m.symmetricOpen := by
  unfold symmetricOpen; infer_instance

/-- A projection that the written cell leaves unchanged is unchanged on
every flat index. -/
theorem getC_proj_set_cell {α : Type} (m : Map) (i j : Nat) (cl : Cell)
    (d : Nat) (f : Cell → α) (hf : f cl = f (m.get_cell i j)) :
    f ((m.set_cell i j cl).getC d) = f (m.getC d) := by
  rw [getC_set_cell]
  split
  · rename_i h; rw [hf, get_cell_eq_getC, h.1]
  · rfl

/-- A map with the same dimensions and the same four flags on every cell
inherits the symmetry invariant. -/
theorem symmetricOpen_of_fields (m m' : Map)
    (hdim : m'.dimensions = m.dimensions)
    (hn : ∀ d, (m'.getC d).n = (m.getC d).n)
    (hs : ∀ d, (m'.getC d).s = (m.getC d).s)
    (he : ∀ d, (m'.getC d).e = (m.getC d).e)
    (hw : ∀ d, (m'.getC d).w = (m.getC d).w)
    (h : m.symmetricOpen) : m'.symmetricOpen := by
  have hflat : ∀ a b, m'.flat a b = m.flat a b := by
    intro a b; unfold flat; rw [hdim]
  intro i' hi' j' hj'
  rw [hdim] at hi' hj'
  have hp := h i' hi' j' hj'
  constructor
  · intro hlt
    rw [hdim] at hlt
    rw [get_cell_eq_getC, get_cell_eq_getC, hflat, hflat, hs, hn]
    exact hp.1 hlt
  · intro hlt
    rw [hdim] at hlt
    rw [get_cell_eq_getC, get_cell_eq_getC, hflat, hflat, he, hw]
    exact hp.2 hlt

theorem symmetricOpen_mark_visited (m : Map) (i j : Nat)
    (h : m.symmetricOpen) : (m.mark_visited i j).symmetricOpen := by
  refine symmetricOpen_of_fields m _ rfl ?_ ?_ ?_ ?_ h <;> intro d
  · exact getC_proj_set_cell m i j _ d (fun cl => cl.n) rfl
  · exact getC_proj_set_cell m i j _ d (fun cl => cl.s) rfl
  · exact getC_proj_set_cell m i j _ d (fun cl => cl.e) rfl
  · exact getC_proj_set_cell m i j _ d (fun cl => cl.w) rfl

theorem symmetricOpen_set_traversal (m : Map) (i j t : Nat)
    (h : m.symmetricOpen) : (m.set_traversal i j t).symmetricOpen := by
  refine symmetricOpen_of_fields m _ rfl ?_ ?_ ?_ ?_ h <;> intro d
  · exact getC_proj_set_cell m i j _ d (fun cl => cl.n) rfl
  · exact getC_proj_set_cell m i j _ d (fun cl => cl.s) rfl
  · exact getC_proj_set_cell m i j _ d (fun cl => cl.e) rfl
  · exact getC_proj_set_cell m i j _ d (fun cl => cl.w) rfl

@[simp] theorem dimensions_write_n (m : Map) (i j : Nat) :
    (m.write_n i j).dimensions = m.dimensions := rfl

@[simp] theorem dimensions_write_s (m : Map) (i j : Nat) :
    (m.write_s i j).dimensions = m.dimensions := rfl

@[simp] theorem dimensions_write_e (m : Map) (i j : Nat) :
    (m.write_e i j).dimensions = m.dimensions := rfl

@[simp] theorem dimensions_write_w (m : Map) (i j : Nat) :
    (m.write_w i j).dimensions = m.dimensions := rfl

@[simp] theorem dimensions_mark_visited (m : Map) (i j : Nat) :
    (m.mark_visited i j).dimensions = m.dimensions := rfl

@[simp] theorem dimensions_set_traversal (m : Map) (i j t : Nat) :
    (m.set_traversal i j t).dimensions = m.dimensions := rfl

@[simp] theorem flat_write_n (m : Map) (i j : Nat) :
    (m.write_n i j).flat = m.flat := rfl

@[simp] theorem flat_write_s (m : Map) (i j : Nat) :
    (m.write_s i j).flat = m.flat := rfl

@[simp] theorem flat_write_e (m : Map) (i j : Nat) :
    (m.write_e i j).flat = m.flat := rfl

@[simp] theorem flat_write_w (m : Map) (i j : Nat) :
    (m.write_w i j).flat = m.flat := rfl

@[simp] theorem flat_mark_visited (m : Map) (i j : Nat) :
    (m.mark_visited i j).flat = m.flat := rfl

@[simp] theorem flat_set_traversal (m : Map) (i j t : Nat) :
    (m.set_traversal i j t).flat = m.flat := rfl

@[simp] theorem length_write_n (m : Map) (i j : Nat) :
    (m.write_n i j).terrain.length = m.terrain.length := List.length_set ..

@[simp] theorem length_write_s (m : Map) (i j : Nat) :
    (m.write_s i j).terrain.length = m.terrain.length := List.length_set ..

@[simp] theorem length_write_e (m : Map) (i j : Nat) :
    (m.write_e i j).terrain.length = m.terrain.length := List.length_set ..

@[simp] theorem length_write_w (m : Map) (i j : Nat) :
    (m.write_w i j).terrain.length = m.terrain.length := List.length_set ..

@[simp] theorem length_mark_visited (m : Map) (i j : Nat) :
    (m.mark_visited i j).terrain.length = m.terrain.length := List.length_set ..

@[simp] theorem length_set_traversal (m : Map) (i j t : Nat) :
    (m.set_traversal i j t).terrain.length = m.terrain.length := List.length_set ..

/-! The four adjacency cases of `open_path_writes`, and preservation of the
symmetry invariant in each. -/

theorem open_path_writes_down (m : Map) (i j : Nat) :
    m.open_path_writes (i, j) (i + 1, j) = (m.write_s i j).write_n (i + 1) j := by
  unfold open_path_writes
  simp

theorem open_path_writes_up (m : Map) (i j : Nat) :
    m.open_path_writes (i + 1, j) (i, j) = (m.write_n (i + 1) j).write_s i j := by
  unfold open_path_writes
  simp

theorem open_path_writes_right (m : Map) (i j : Nat) :
    m.open_path_writes (i, j) (i, j + 1) = (m.write_e i j).write_w i (j + 1) := by
  unfold open_path_writes
  simp

theorem open_path_writes_left (m : Map) (i j : Nat) :
    m.open_path_writes (i, j + 1) (i, j) = (m.write_w i (j + 1)).write_e i j := by
  unfold open_path_writes
  simp

/-- Opening a vertical passage (in either write order) preserves the
symmetry invariant. -/
theorem symmetricOpen_vertical (m : Map) (hWF : m.WF) (i j : Nat)
    (hsym : m.symmetricOpen) (M : Map)
    (hM : (M = (m.write_s i j).write_n (i + 1) j) ∨
          (M = (m.write_n (i + 1) j).write_s i j)) :
    M.symmetricOpen := by
  have hdim : M.dimensions = m.dimensions := by rcases hM with h | h <;> subst h <;> simp
  have hflq : ∀ a b, M.flat a b = m.flat a b := by
    intro a b; unfold flat; rw [hdim]
  have hlen : M.terrain.length = m.terrain.length := by
    rcases hM with h | h <;> subst h <;> simp
  -- flag values of `M` at each flat index
  have hs : ∀ d, (M.getC d).s =
      if m.flat i j = d ∧ d < m.terrain.length then true else (m.getC d).s := by
    intro d
    rcases hM with h | h <;> subst h
    · have e1 : (((m.write_s i j).write_n (i + 1) j).getC d).s =
          ((m.write_s i j).getC d).s :=
        getC_proj_set_cell (m.write_s i j) (i + 1) j _ d (fun cl => cl.s) rfl
      rw [e1, getC_write_s]
      split <;> rfl
    · have e1 : (((m.write_n (i + 1) j).write_s i j).getC d).s =
          if (m.write_n (i + 1) j).flat i j = d ∧
              d < (m.write_n (i + 1) j).terrain.length
          then true else ((m.write_n (i + 1) j).getC d).s := by
        rw [getC_write_s]; split <;> rfl
      have e2 : ((m.write_n (i + 1) j).getC d).s = (m.getC d).s :=
        getC_proj_set_cell m (i + 1) j _ d (fun cl => cl.s) rfl
      rw [e1, e2]; simp
  have hn : ∀ d, (M.getC d).n =
      if m.flat (i + 1) j = d ∧ d < m.terrain.length then true else (m.getC d).n := by
    intro d
    rcases hM with h | h <;> subst h
    · have e1 : (((m.write_s i j).write_n (i + 1) j).getC d).n =
          if (m.write_s i j).flat (i + 1) j = d ∧
              d < (m.write_s i j).terrain.length
          then true else ((m.write_s i j).getC d).n := by
        rw [getC_write_n]; split <;> rfl
      have e2 : ((m.write_s i j).getC d).n = (m.getC d).n :=
        getC_proj_set_cell m i j _ d (fun cl => cl.n) rfl
      rw [e1, e2]; simp
    · have e1 : (((m.write_n (i + 1) j).write_s i j).getC d).n =
          ((m.write_n (i + 1) j).getC d).n :=
        getC_proj_set_cell (m.write_n (i + 1) j) i j _ d (fun cl => cl.n) rfl
      rw [e1, getC_write_n]
      split <;> rfl
  have he : ∀ d, (M.getC d).e = (m.getC d).e := by
    intro d
    rcases hM with h | h <;> subst h
    · have e1 : (((m.write_s i j).write_n (i + 1) j).getC d).e =
          ((m.write_s i j).getC d).e :=
        getC_proj_set_cell (m.write_s i j) (i + 1) j _ d (fun cl => cl.e) rfl
      rw [e1]; exact getC_proj_set_cell m i j _ d (fun cl => cl.e) rfl
    · have e1 : (((m.write_n (i + 1) j).write_s i j).getC d).e =
          ((m.write_n (i + 1) j).getC d).e :=
        getC_proj_set_cell (m.write_n (i + 1) j) i j _ d (fun cl => cl.e) rfl
      rw [e1]; exact getC_proj_set_cell m (i + 1) j _ d (fun cl => cl.e) rfl
  have hw : ∀ d, (M.getC d).w = (m.getC d).w := by
    intro d
    rcases hM with h | h <;> subst h
    · have e1 : (((m.write_s i j).write_n (i + 1) j).getC d).w =
          ((m.write_s i j).getC d).w :=
        getC_proj_set_cell (m.write_s i j) (i + 1) j _ d (fun cl => cl.w) rfl
      rw [e1]; exact getC_proj_set_cell m i j _ d (fun cl => cl.w) rfl
    · have e1 : (((m.write_n (i + 1) j).write_s i j).getC d).w =
          ((m.write_n (i + 1) j).getC d).w :=
        getC_proj_set_cell (m.write_n (i + 1) j) i j _ d (fun cl => cl.w) rfl
      rw [e1]; exact getC_proj_set_cell m (i + 1) j _ d (fun cl => cl.w) rfl
  intro i' hi' j' hj'
  rw [hdim] at hi' hj'
  have hpair := hsym i' hi' j' hj'
  constructor
  · intro hlt
    rw [hdim] at hlt
    rw [get_cell_eq_getC, get_cell_eq_getC, hflq, hflq, hs, hn]
    have harith : m.flat (i + 1) j = m.flat (i' + 1) j' ↔ m.flat i j = m.flat i' j' := by
      rw [flat_succ_row, flat_succ_row]; omega
    by_cases hd : m.flat i j = m.flat i' j'
    · have h1 : m.flat i' j' < m.terrain.length :=
        flat_lt_length hWF (p := (i', j')) ⟨hi', hj'⟩
      have h2 : m.flat (i' + 1) j' < m.terrain.length :=
        flat_lt_length hWF (p := (i' + 1, j')) ⟨hlt, hj'⟩
      rw [if_pos ⟨hd, h1⟩, if_pos ⟨harith.mpr hd, h2⟩]
    · rw [if_neg (fun hc => hd hc.1),
        if_neg (fun hc => hd (harith.mp hc.1))]
      rw [get_cell_eq_getC, get_cell_eq_getC] at hpair
      exact hpair.1 hlt
  · intro hlt
    rw [hdim] at hlt
    rw [get_cell_eq_getC, get_cell_eq_getC, hflq, hflq, he, hw]
    rw [get_cell_eq_getC, get_cell_eq_getC] at hpair
    exact hpair.2 hlt

/-- Opening a horizontal passage (in either write order) preserves the
symmetry invariant. -/
theorem symmetricOpen_horizontal (m : Map) (hWF : m.WF) (i j : Nat)
    (hsym : m.symmetricOpen) (M : Map)
    (hM : (M = (m.write_e i j).write_w i (j + 1)) ∨
          (M = (m.write_w i (j + 1)).write_e i j)) :
    M.symmetricOpen := by
  have hdim : M.dimensions = m.dimensions := by rcases hM with h | h <;> subst h <;> simp
  have hflq : ∀ a b, M.flat a b = m.flat a b := by
    intro a b; unfold flat; rw [hdim]
  have he : ∀ d, (M.getC d).e =
      if m.flat i j = d ∧ d < m.terrain.length then true else (m.getC d).e := by
    intro d
    rcases hM with h | h <;> subst h
    · have e1 : (((m.write_e i j).write_w i (j + 1)).getC d).e =
          ((m.write_e i j).getC d).e :=
        getC_proj_set_cell (m.write_e i j) i (j + 1) _ d (fun cl => cl.e) rfl
      rw [e1, getC_write_e]
      split <;> rfl
    · have e1 : (((m.write_w i (j + 1)).write_e i j).getC d).e =
          if (m.write_w i (j + 1)).flat i j = d ∧
              d < (m.write_w i (j + 1)).terrain.length
          then true else ((m.write_w i (j + 1)).getC d).e := by
        rw [getC_write_e]; split <;> rfl
      have e2 : ((m.write_w i (j + 1)).getC d).e = (m.getC d).e :=
        getC_proj_set_cell m i (j + 1) _ d (fun cl => cl.e) rfl
      rw [e1, e2]; simp
  have hw : ∀ d, (M.getC d).w =
      if m.flat i (j + 1) = d ∧ d < m.terrain.length then true else (m.getC d).w := by
    intro d
    rcases hM with h | h <;> subst h
    · have e1 : (((m.write_e i j).write_w i (j + 1)).getC d).w =
          if (m.write_e i j).flat i (j + 1) = d ∧
              d < (m.write_e i j).terrain.length
          then true else ((m.write_e i j).getC d).w := by
        rw [getC_write_w]; split <;> rfl
      have e2 : ((m.write_e i j).getC d).w = (m.getC d).w :=
        getC_proj_set_cell m i j _ d (fun cl => cl.w) rfl
      rw [e1, e2]; simp
    · have e1 : (((m.write_w i (j + 1)).write_e i j).getC d).w =
          ((m.write_w i (j + 1)).getC d).w :=
        getC_proj_set_cell (m.write_w i (j + 1)) i j _ d (fun cl => cl.w) rfl
      rw [e1, getC_write_w]
      split <;> rfl
  have hn : ∀ d, (M.getC d).n = (m.getC d).n := by
    intro d
    rcases hM with h | h <;> subst h
    · have e1 : (((m.write_e i j).write_w i (j + 1)).getC d).n =
          ((m.write_e i j).getC d).n :=
        getC_proj_set_cell (m.write_e i j) i (j + 1) _ d (fun cl => cl.n) rfl
      rw [e1]; exact getC_proj_set_cell m i j _ d (fun cl => cl.n) rfl
    · have e1 : (((m.write_w i (j + 1)).write_e i j).getC d).n =
          ((m.write_w i (j + 1)).getC d).n :=
        getC_proj_set_cell (m.write_w i (j + 1)) i j _ d (fun cl => cl.n) rfl
      rw [e1]; exact getC_proj_set_cell m i (j + 1) _ d (fun cl => cl.n) rfl
  have hsn : ∀ d, (M.getC d).s = (m.getC d).s := by
    intro d
    rcases hM with h | h <;> subst h
    · have e1 : (((m.write_e i j).write_w i (j + 1)).getC d).s =
          ((m.write_e i j).getC d).s :=
        getC_proj_set_cell (m.write_e i j) i (j + 1) _ d (fun cl => cl.s) rfl
      rw [e1]; exact getC_proj_set_cell m i j _ d (fun cl => cl.s) rfl
    · have e1 : (((m.write_w i (j + 1)).write_e i j).getC d).s =
          ((m.write_w i (j + 1)).getC d).s :=
        getC_proj_set_cell (m.write_w i (j + 1)) i j _ d (fun cl => cl.s) rfl
      rw [e1]; exact getC_proj_set_cell m i (j + 1) _ d (fun cl => cl.s) rfl
  intro i' hi' j' hj'
  rw [hdim] at hi' hj'
  have hpair := hsym i' hi' j' hj'
  constructor
  · intro hlt
    rw [hdim] at hlt
    rw [get_cell_eq_getC, get_cell_eq_getC, hflq, hflq, hsn, hn]
    rw [get_cell_eq_getC, get_cell_eq_getC] at hpair
    exact hpair.1 hlt
  · intro hlt
    rw [hdim] at hlt
    rw [get_cell_eq_getC, get_cell_eq_getC, hflq, hflq, he, hw]
    have harith : m.flat i (j + 1) = m.flat i' (j' + 1) ↔ m.flat i j = m.flat i' j' := by
      rw [flat_succ_col, flat_succ_col]; omega
    by_cases hd : m.flat i j = m.flat i' j'
    · have h1 : m.flat i' j' < m.terrain.length :=
        flat_lt_length hWF (p := (i', j')) ⟨hi', hj'⟩
      have h2 : m.flat i' (j' + 1) < m.terrain.length :=
        flat_lt_length hWF (p := (i', j' + 1)) ⟨hi', hlt⟩
      rw [if_pos ⟨hd, h1⟩, if_pos ⟨harith.mpr hd, h2⟩]
    · rw [if_neg (fun hc => hd hc.1),
        if_neg (fun hc => hd (harith.mp hc.1))]
      rw [get_cell_eq_getC, get_cell_eq_getC] at hpair
      exact hpair.2 hlt

/-- `open_path_between` preserves the symmetry invariant: a rejected call
leaves the map unchanged, and an accepted call opens a matching flag pair
on two adjacent cells. -/
theorem symmetricOpen_open_path_between (m : Map) (hWF : m.WF)
    (toc fro : Coord) (hsym : m.symmetricOpen) :
    (m.open_path_between toc fro).1.symmetricOpen := by
  unfold open_path_between
  by_cases hc : (m.get_neighbor_indices toc.1 toc.2).contains fro
  · rw [if_pos hc]
    have hmem : fro ∈ m.get_neighbor_indices toc.1 toc.2 := List.elem_iff.mp hc
    rw [mem_get_neighbor_indices] at hmem
    obtain ⟨i, j⟩ := toc
    rcases hmem with ⟨hpos, rfl⟩ | ⟨_, rfl⟩ | ⟨hpos, rfl⟩ | ⟨_, rfl⟩
    · -- fro = (i - 1, j): vertical, `fro` above `toc`
      obtain ⟨i₀, rfl⟩ : ∃ i₀, i = i₀ + 1 := ⟨i - 1, by omega⟩
      have hw : m.open_path_writes (i₀ + 1, j) (i₀ + 1 - 1, j) =
          (m.write_n (i₀ + 1) j).write_s i₀ j := by
        have : i₀ + 1 - 1 = i₀ := by omega
        rw [this, open_path_writes_up]
      rw [hw]
      exact symmetricOpen_vertical m hWF i₀ j hsym _ (Or.inr rfl)
    · -- fro = (i + 1, j): vertical, `fro` below `toc`
      rw [open_path_writes_down]
      exact symmetricOpen_vertical m hWF i j hsym _ (Or.inl rfl)
    · -- fro = (i, j - 1): horizontal, `fro` left of `toc`
      obtain ⟨j₀, rfl⟩ : ∃ j₀, j = j₀ + 1 := ⟨j - 1, by omega⟩
      have hw : m.open_path_writes (i, j₀ + 1) (i, j₀ + 1 - 1) =
          (m.write_w i (j₀ + 1)).write_e i j₀ := by
        have : j₀ + 1 - 1 = j₀ := by omega
        rw [this, open_path_writes_left]
      rw [hw]
      exact symmetricOpen_horizontal m hWF i j₀ hsym _ (Or.inr rfl)
    · -- fro = (i, j + 1): horizontal, `fro` right of `toc`
      rw [open_path_writes_right]
      exact symmetricOpen_horizontal m hWF i j hsym _ (Or.inl rfl)
  · rw [if_neg hc]
    exact hsym

@[simp] theorem visited_getC_write_n (m : Map) (i j d : Nat) :
    ((m.write_n i j).getC d).visited = (m.getC d).visited :=
  getC_proj_set_cell m i j _ d (fun cl => cl.visited) rfl

@[simp] theorem visited_getC_write_s (m : Map) (i j d : Nat) :
    ((m.write_s i j).getC d).visited = (m.getC d).visited :=
  getC_proj_set_cell m i j _ d (fun cl => cl.visited) rfl

@[simp] theorem visited_getC_write_e (m : Map) (i j d : Nat) :
    ((m.write_e i j).getC d).visited = (m.getC d).visited :=
  getC_proj_set_cell m i j _ d (fun cl => cl.visited) rfl

@[simp] theorem visited_getC_write_w (m : Map) (i j d : Nat) :
    ((m.write_w i j).getC d).visited = (m.getC d).visited :=
  getC_proj_set_cell m i j _ d (fun cl => cl.visited) rfl

@[simp] theorem visited_getC_set_traversal (m : Map) (i j t d : Nat) :
    ((m.set_traversal i j t).getC d).visited = (m.getC d).visited :=
  getC_proj_set_cell m i j _ d (fun cl => cl.visited) rfl

@[simp] theorem dimensions_open_path_writes (m : Map) (toc fro : Coord) :
    (m.open_path_writes toc fro).dimensions = m.dimensions := by
  unfold open_path_writes
  split_ifs <;> simp

@[simp] theorem length_open_path_writes (m : Map) (toc fro : Coord) :
    (m.open_path_writes toc fro).terrain.length = m.terrain.length := by
  unfold open_path_writes
  split_ifs <;> simp

@[simp] theorem visited_getC_open_path_writes (m : Map) (toc fro : Coord) (d : Nat) :
    ((m.open_path_writes toc fro).getC d).visited = (m.getC d).visited := by
  unfold open_path_writes
  split_ifs <;> simp

@[simp] theorem dimensions_open_path_between (m : Map) (toc fro : Coord) :
    (m.open_path_between toc fro).1.dimensions = m.dimensions := by
  unfold open_path_between
  split_ifs <;> simp

@[simp] theorem length_open_path_between (m : Map) (toc fro : Coord) :
    (m.open_path_between toc fro).1.terrain.length = m.terrain.length := by
  unfold open_path_between
  split_ifs <;> simp

@[simp] theorem visited_getC_open_path_between (m : Map) (toc fro : Coord) (d : Nat) :
    ((m.open_path_between toc fro).1.getC d).visited = (m.getC d).visited := by
  unfold open_path_between
  split_ifs <;> simp

/-- A map with unchanged terrain length and dimensions stays well-formed. -/
theorem WF_of {m m' : Map} (hlen : m'.terrain.length = m.terrain.length)
    (hdim : m'.dimensions = m.dimensions) (h : m.WF) : m'.WF := by
  unfold WF at h ⊢
  rw [hlen, hdim, h]

/-! ## The freshly constructed map -/

@[simp] theorem getC_init (r c d : Nat) : (Map.init r c).getC d = Cell.new := by
  unfold init getC
  rw [List.getD_eq_getElem?_getD, List.getElem?_replicate]
  split <;> rfl

@[simp] theorem dimensions_init (r c : Nat) :
    (Map.init r c).dimensions = (r, c) := rfl

@[simp] theorem length_init (r c : Nat) :
    (Map.init r c).terrain.length = r * c := by
  unfold init
  simp

theorem WF_init (r c : Nat) : (Map.init r c).WF := by
  unfold WF init
  simp

theorem symmetricOpen_init (r c : Nat) : (Map.init r c).symmetricOpen := by
  intro i _ j _
  constructor
  · intro _
    rw [get_cell_eq_getC, get_cell_eq_getC, getC_init, getC_init]
    decide
  · intro _
    rw [get_cell_eq_getC, get_cell_eq_getC, getC_init, getC_init]
    decide

end Map

/-! ## States reachable through the grid operations and the generators -/

open Map in
/-- The states reachable from a freshly constructed grid through the two
mutating grid operations (`open_path_between`, `mark_visited`, plus the
generator's `traversal_index` bookkeeping write) and through whole
iterations of either generator's loop. -/
inductive Reachable : Map → Prop where
  | init (r c : Nat) : Reachable (Map.init r c)
  | open_path (m : Map) (toc fro : Coord) :
      Reachable m → Reachable (m.open_path_between toc fro).1
  | mark (m : Map) (i j : Nat) :
      Reachable m → Reachable (m.mark_visited i j)
  | trav (m : Map) (i j t : Nat) :
      Reachable m → Reachable (m.set_traversal i j t)
  | bt_step (rng : Rng) (st st' : BTState) : Reachable st.map →
      (btStep rng st = .next st' ∨ btStep rng st = .done st') →
      Reachable st'.map
  | prims_step (rng : Rng) (st st' : PrimsState) : Reachable st.map →
      (primsStep rng st = .next st' ∨ primsStep rng st = .done st') →
      Reachable st'.map

namespace Map

/-- Well-formedness together with the symmetry invariant. -/
def SWF (m : Map) : Prop := m.WF ∧ m.symmetricOpen

theorem SWF_open_path_between (m : Map) (toc fro : Coord) (h : m.SWF) :
    (m.open_path_between toc fro).1.SWF :=
  ⟨WF_of (length_open_path_between ..) (dimensions_open_path_between ..) h.1,
    symmetricOpen_open_path_between m h.1 toc fro h.2⟩

theorem SWF_mark_visited (m : Map) (i j : Nat) (h : m.SWF) :
    (m.mark_visited i j).SWF :=
  ⟨WF_of (length_mark_visited ..) (dimensions_mark_visited ..) h.1,
    symmetricOpen_mark_visited m i j h.2⟩

theorem SWF_set_traversal (m : Map) (i j t : Nat) (h : m.SWF) :
    (m.set_traversal i j t).SWF :=
  ⟨WF_of (length_set_traversal ..) (dimensions_set_traversal ..) h.1,
    symmetricOpen_set_traversal m i j t h.2⟩

end Map

/-- Each outer iteration of `recursive_backtracking` only composes the
`traversal_index` write, one `open_path_between` and one `mark_visited`,
so it preserves well-formedness and symmetry. -/
theorem SWF_btStep (rng : Rng) (st st' : BTState)
    (h : btStep rng st = .next st' ∨ btStep rng st = .done st')
    (hswf : st.map.SWF) : st'.map.SWF := by
  have h1 := Map.SWF_set_traversal st.map st.current.1 st.current.2 0 hswf
  rcases h with h | h
  · simp only [btStep] at h
    split at h
    · split at h
      · cases h
      · cases h; exact h1
    · split at h
      · cases h
      · cases h
        exact Map.SWF_mark_visited _ _ _ (Map.SWF_open_path_between _ _ _ h1)
  · simp only [btStep] at h
    split at h
    · split at h
      · cases h; exact h1
      · cases h
    · split at h
      · cases h
      · cases h

/-- Each iteration of `randomized_prims` only composes the
`traversal_index` write, one `mark_visited` and one `open_path_between`,
so it preserves well-formedness and symmetry. -/
theorem SWF_primsStep (rng : Rng) (st st' : PrimsState)
    (h : primsStep rng st = .next st' ∨ primsStep rng st = .done st')
    (hswf : st.map.SWF) : st'.map.SWF := by
  have h1 := Map.SWF_set_traversal st.map st.current.1 st.current.2 0 hswf
  rcases h with h | h
  · simp only [primsStep] at h
    split at h
    · cases h
    · split at h
      · cases h
      · split at h
        · cases h
        · split at h
          · cases h
          · cases h
            exact Map.SWF_open_path_between _ _ _
              (Map.SWF_mark_visited _ _ _ h1)
  · simp only [primsStep] at h
    split at h
    · cases h; exact hswf
    · split at h
      · cases h
      · split at h
        · cases h
        · split at h
          · cases h
            exact Map.SWF_open_path_between _ _ _
              (Map.SWF_mark_visited _ _ _ h1)
          · cases h

/-- Every reachable state is well-formed and symmetric. -/
theorem reachable_SWF {m : Map} (h : Reachable m) : m.SWF := by
  induction h with
  | init r c => exact ⟨Map.WF_init r c, Map.symmetricOpen_init r c⟩
  | open_path m toc fro _ ih => exact Map.SWF_open_path_between m toc fro ih
  | mark m i j _ ih => exact Map.SWF_mark_visited m i j ih
  | trav m i j t _ ih => exact Map.SWF_set_traversal m i j t ih
  | bt_step rng st st' _ hstep ih => exact SWF_btStep rng st st' hstep ih
  | prims_step rng st st' _ hstep ih => exact SWF_primsStep rng st st' hstep ih


/-! ## Unvisited cells are fully closed -/

namespace Map

/-- The spec invariant: a cell with `visited == false` has all four
directional flags `false`. -/
def closedUnvisited (m : Map) : Prop :=
  ∀ d, d < m.terrain.length → (m.getC d).visited = false →
    (m.getC d).n = false ∧ (m.getC d).s = false ∧
    (m.getC d).e = false ∧ (m.getC d).w = false

instance (m : Map) : Decidable m.closedUnvisited := by
  unfold closedUnvisited; infer_instance

theorem closedUnvisited_init (r c : Nat) : (Map.init r c).closedUnvisited := by
  intro d _ _
  rw [getC_init]
  exact ⟨rfl, rfl, rfl, rfl⟩

/-- Writing a cell that itself satisfies the invariant preserves it. -/
theorem closedUnvisited_set_cell (m : Map) (i j : Nat) (cl : Cell)
    (h : m.closedUnvisited)
    (hcl : cl.visited = false →
      cl.n = false ∧ cl.s = false ∧ cl.e = false ∧ cl.w = false) :
    (m.set_cell i j cl).closedUnvisited := by
  intro d hd
  rw [length_set_cell] at hd
  rw [getC_set_cell]
  split
  · exact hcl
  · exact h d hd

theorem closedUnvisited_mark_visited (m : Map) (i j : Nat)
    (h : m.closedUnvisited) : (m.mark_visited i j).closedUnvisited :=
  closedUnvisited_set_cell m i j _ h (by intro hfalse; cases hfalse)

theorem closedUnvisited_set_traversal (m : Map) (i j t : Nat)
    (h : m.closedUnvisited) : (m.set_traversal i j t).closedUnvisited := by
  refine closedUnvisited_set_cell m i j _ h ?_
  intro hv
  have hv' : (m.getC (m.flat i j)).visited = false := hv
  by_cases hlt : m.flat i j < m.terrain.length
  · exact h (m.flat i j) hlt hv'
  · have hnew : m.getC (m.flat i j) = Cell.new := by
      unfold getC
      rw [List.getD_eq_getElem?_getD,
        List.getElem?_eq_none (Nat.le_of_not_lt hlt)]
      rfl
    show (m.getC (m.flat i j)).n = false ∧ (m.getC (m.flat i j)).s = false ∧
      (m.getC (m.flat i j)).e = false ∧ (m.getC (m.flat i j)).w = false
    rw [hnew]
    exact ⟨rfl, rfl, rfl, rfl⟩

/-- A flag write into a visited cell preserves the invariant (the written
cell stays visited, so the implication is vacuous there). -/
theorem closedUnvisited_write_visited (m : Map) (i j : Nat) (cl : Cell)
    (h : m.closedUnvisited) (hv : cl.visited = (m.get_cell i j).visited)
    (hvis : m.visitedAt (i, j)) : (m.set_cell i j cl).closedUnvisited := by
  refine closedUnvisited_set_cell m i j cl h ?_
  intro hfalse
  exfalso
  have : cl.visited = true := by rw [hv]; exact hvis
  rw [hfalse] at this
  cases this

/-- Any single-cell write followed by `mark_visited` of the same cell
preserves the invariant: the mark shields whatever the write did. -/
theorem closedUnvisited_set_then_mark (m : Map) (i j : Nat) (cl : Cell)
    (h : m.closedUnvisited) :
    ((m.set_cell i j cl).mark_visited i j).closedUnvisited := by
  intro d hd
  rw [length_mark_visited, length_set_cell] at hd
  rw [getC_mark_visited]
  split
  · intro hfalse; cases hfalse
  · rename_i hcond
    rw [getC_set_cell]
    split
    · rename_i hcond2
      exfalso
      exact hcond (by simpa using hcond2)
    · exact h d hd

theorem visitedAt_congr (m' m : Map)
    (hdim : m'.dimensions = m.dimensions)
    (hvis : ∀ d, (m'.getC d).visited = (m.getC d).visited) (p : Coord) :
    m'.visitedAt p ↔ m.visitedAt p := by
  unfold visitedAt
  rw [get_cell_eq_getC, get_cell_eq_getC, hvis,
    show m'.flat p.1 p.2 = m.flat p.1 p.2 by unfold flat; rw [hdim]]

theorem visitedAt_set_traversal (m : Map) (i j t : Nat) (p : Coord) :
    (m.set_traversal i j t).visitedAt p ↔ m.visitedAt p :=
  visitedAt_congr (m.set_traversal i j t) m rfl
    (fun d => visited_getC_set_traversal m i j t d) p

theorem visitedAt_open_path_between (m : Map) (toc fro : Coord) (p : Coord) :
    (m.open_path_between toc fro).1.visitedAt p ↔ m.visitedAt p :=
  visitedAt_congr (m.open_path_between toc fro).1 m
    (dimensions_open_path_between ..)
    (fun d => visited_getC_open_path_between m toc fro d) p

theorem visitedAt_mark_mono (m : Map) (i j : Nat) (p : Coord)
    (h : m.visitedAt p) : (m.mark_visited i j).visitedAt p := by
  unfold visitedAt at h ⊢
  rw [get_cell_eq_getC] at h ⊢
  rw [flat_mark_visited, getC_mark_visited]
  split
  · rfl
  · exact h

theorem visitedAt_mark_self (m : Map) (i j : Nat)
    (hlt : m.flat i j < m.terrain.length) :
    (m.mark_visited i j).visitedAt (i, j) := by
  unfold visitedAt
  rw [get_cell_eq_getC, flat_mark_visited, getC_mark_visited,
    if_pos ⟨rfl, hlt⟩]

/-- `visitedAt` can only hold in a cell that really exists. -/
theorem flat_lt_of_visitedAt {m : Map} {p : Coord} (h : m.visitedAt p) :
    m.flat p.1 p.2 < m.terrain.length := by
  by_contra hge
  unfold visitedAt at h
  rw [get_cell_eq_getC] at h
  unfold getC at h
  rw [List.getD_eq_getElem?_getD,
    List.getElem?_eq_none (Nat.le_of_not_lt hge)] at h
  cases h

theorem inB_congr (m' m : Map) (hdim : m'.dimensions = m.dimensions)
    (p : Coord) : m'.inB p ↔ m.inB p := by
  unfold inB; rw [hdim]

/-- The conjunction carried through the writes of `open_path_between` when
both endpoints are visited. -/
def okCl (toc fro : Coord) (m : Map) : Prop :=
  m.closedUnvisited ∧ m.visitedAt toc ∧ m.visitedAt fro

theorem okCl_write_n (toc fro : Coord) (m : Map) (a b : Nat)
    (hab : (a, b) = toc ∨ (a, b) = fro) (h : okCl toc fro m) :
    okCl toc fro (m.write_n a b) := by
  have hvis : m.visitedAt (a, b) := by
    rcases hab with h' | h' <;> rw [h']
    exacts [h.2.1, h.2.2]
  refine ⟨closedUnvisited_write_visited m a b _ h.1 rfl hvis, ?_, ?_⟩
  · exact (visitedAt_congr (m.write_n a b) m rfl
      (fun d => visited_getC_write_n m a b d) toc).mpr h.2.1
  · exact (visitedAt_congr (m.write_n a b) m rfl
      (fun d => visited_getC_write_n m a b d) fro).mpr h.2.2

theorem okCl_write_s (toc fro : Coord) (m : Map) (a b : Nat)
    (hab : (a, b) = toc ∨ (a, b) = fro) (h : okCl toc fro m) :
    okCl toc fro (m.write_s a b) := by
  have hvis : m.visitedAt (a, b) := by
    rcases hab with h' | h' <;> rw [h']
    exacts [h.2.1, h.2.2]
  refine ⟨closedUnvisited_write_visited m a b _ h.1 rfl hvis, ?_, ?_⟩
  · exact (visitedAt_congr (m.write_s a b) m rfl
      (fun d => visited_getC_write_s m a b d) toc).mpr h.2.1
  · exact (visitedAt_congr (m.write_s a b) m rfl
      (fun d => visited_getC_write_s m a b d) fro).mpr h.2.2

theorem okCl_write_e (toc fro : Coord) (m : Map) (a b : Nat)
    (hab : (a, b) = toc ∨ (a, b) = fro) (h : okCl toc fro m) :
    okCl toc fro (m.write_e a b) := by
  have hvis : m.visitedAt (a, b) := by
    rcases hab with h' | h' <;> rw [h']
    exacts [h.2.1, h.2.2]
  refine ⟨closedUnvisited_write_visited m a b _ h.1 rfl hvis, ?_, ?_⟩
  · exact (visitedAt_congr (m.write_e a b) m rfl
      (fun d => visited_getC_write_e m a b d) toc).mpr h.2.1
  · exact (visitedAt_congr (m.write_e a b) m rfl
      (fun d => visited_getC_write_e m a b d) fro).mpr h.2.2

theorem okCl_write_w (toc fro : Coord) (m : Map) (a b : Nat)
    (hab : (a, b) = toc ∨ (a, b) = fro) (h : okCl toc fro m) :
    okCl toc fro (m.write_w a b) := by
  have hvis : m.visitedAt (a, b) := by
    rcases hab with h' | h' <;> rw [h']
    exacts [h.2.1, h.2.2]
  refine ⟨closedUnvisited_write_visited m a b _ h.1 rfl hvis, ?_, ?_⟩
  · exact (visitedAt_congr (m.write_w a b) m rfl
      (fun d => visited_getC_write_w m a b d) toc).mpr h.2.1
  · exact (visitedAt_congr (m.write_w a b) m rfl
      (fun d => visited_getC_write_w m a b d) fro).mpr h.2.2

theorem okCl_open_path_writes (toc fro : Coord) (m : Map)
    (h : okCl toc fro m) : okCl toc fro (m.open_path_writes toc fro) := by
  unfold open_path_writes
  have s1 : ∀ mm : Map, okCl toc fro mm → okCl toc fro
      (if toc.1 < fro.1 then (mm.write_s toc.1 toc.2).write_n fro.1 fro.2 else mm) := by
    intro mm hmm
    split
    · exact okCl_write_n toc fro _ fro.1 fro.2 (Or.inr rfl)
        (okCl_write_s toc fro mm toc.1 toc.2 (Or.inl rfl) hmm)
    · exact hmm
  have s2 : ∀ mm : Map, okCl toc fro mm → okCl toc fro
      (if fro.1 < toc.1 then (mm.write_n toc.1 toc.2).write_s fro.1 fro.2 else mm) := by
    intro mm hmm
    split
    · exact okCl_write_s toc fro _ fro.1 fro.2 (Or.inr rfl)
        (okCl_write_n toc fro mm toc.1 toc.2 (Or.inl rfl) hmm)
    · exact hmm
  have s3 : ∀ mm : Map, okCl toc fro mm → okCl toc fro
      (if toc.2 < fro.2 then (mm.write_e toc.1 toc.2).write_w fro.1 fro.2 else mm) := by
    intro mm hmm
    split
    · exact okCl_write_w toc fro _ fro.1 fro.2 (Or.inr rfl)
        (okCl_write_e toc fro mm toc.1 toc.2 (Or.inl rfl) hmm)
    · exact hmm
  have s4 : ∀ mm : Map, okCl toc fro mm → okCl toc fro
      (if fro.2 < toc.2 then (mm.write_w toc.1 toc.2).write_e fro.1 fro.2 else mm) := by
    intro mm hmm
    split
    · exact okCl_write_e toc fro _ fro.1 fro.2 (Or.inr rfl)
        (okCl_write_w toc fro mm toc.1 toc.2 (Or.inl rfl) hmm)
    · exact hmm
  exact s4 _ (s3 _ (s2 _ (s1 m h)))

/-- `open_path_between` preserves the invariant when both endpoints are
already visited (the `randomized_prims` call pattern). -/
theorem closedUnvisited_open_visited (m : Map) (toc fro : Coord)
    (h : m.closedUnvisited) (htoc : m.visitedAt toc) (hfro : m.visitedAt fro) :
    (m.open_path_between toc fro).1.closedUnvisited := by
  unfold open_path_between
  split
  · exact (okCl_open_path_writes toc fro m ⟨h, htoc, hfro⟩).1
  · exact h

end Map

/-! ## Generic loop lemmas and auxiliary facts -/

/-- A loop whose invariant forbids panics and whose measure strictly drops
on every `next` step exits within `meas` iterations. -/
theorem stepRun_done {σ : Type} (step : σ → StepRes σ) (Inv : σ → Prop)
    (meas : σ → Nat)
    (hnext : ∀ st st', Inv st → step st = .next st' →
      Inv st' ∧ meas st' < meas st)
    (hdone : ∀ st st', Inv st → step st = .done st' → Inv st')
    (hnopanic : ∀ st, Inv st → step st ≠ .panicked) :
    ∀ fuel st, Inv st → meas st < fuel →
      ∃ st', stepRun step fuel st = .done st' ∧ Inv st' := by
  intro fuel
  induction fuel with
  | zero => intro st _ h; omega
  | succ n ih =>
    intro st hInv hm
    cases hstep : step st with
    | next st' =>
      obtain ⟨hInv', hlt⟩ := hnext st st' hInv hstep
      obtain ⟨stf, h1, h2⟩ := ih st' hInv' (by omega)
      exact ⟨stf, by unfold stepRun; rw [hstep]; exact h1, h2⟩
    | done st' =>
      exact ⟨st', by unfold stepRun; rw [hstep], hdone st st' hInv hstep⟩
    | panicked => exact absurd hstep (hnopanic st hInv)

/-- An invariant preserved by `next` and `done` steps holds at every
iterate. -/
theorem stepIter_inv {σ : Type} (step : σ → StepRes σ) (Inv : σ → Prop)
    (hnext : ∀ st st', Inv st → step st = .next st' → Inv st') :
    ∀ n st, Inv st → Inv (stepIter step n st) := by
  intro n
  induction n with
  | zero => intro st h; exact h
  | succ k ih =>
    intro st hInv
    unfold stepIter
    cases hstep : step st with
    | next st' => exact ih st' (hnext st st' hInv hstep)
    | done st' => exact hInv
    | panicked => exact hInv

theorem gen_range_some {rng : Rng} {k n idx : Nat}
    (h : gen_range rng k n = some idx) : idx < n := by
  unfold gen_range at h
  split at h
  · cases h
  · rename_i hn
    cases h
    exact Nat.mod_lt _ (Nat.pos_of_ne_zero hn)

theorem gen_range_pos {rng : Rng} {k n : Nat} (h : 0 < n) :
    gen_range rng k n = some (rng k % n) := by
  unfold gen_range
  rw [if_neg (Nat.pos_iff_ne_zero.mp h)]

theorem getD_mem {α : Type} {l : List α} {idx : Nat} (d : α)
    (h : idx < l.length) : l.getD idx d ∈ l := by
  rw [List.getD_eq_getElem?_getD, List.getElem?_eq_getElem h]
  exact List.getElem_mem h

namespace Map

theorem neighbors_congr (m' m : Map) (hdim : m'.dimensions = m.dimensions)
    (i j : Nat) : m'.get_neighbor_indices i j = m.get_neighbor_indices i j := by
  unfold get_neighbor_indices
  rw [hdim]

theorem mem_unvisited_neighbors {m : Map} {i j : Nat} {p : Coord} :
    p ∈ m.get_unvisited_neighbor_indices i j ↔
      p ∈ m.get_neighbor_indices i j ∧ (m.get_cell p.1 p.2).visited = false := by
  unfold get_unvisited_neighbor_indices
  rw [List.mem_filter]
  simp

theorem mem_visited_neighbors {m : Map} {i j : Nat} {p : Coord} :
    p ∈ m.get_visited_neighbor_indices i j ↔
      p ∈ m.get_neighbor_indices i j ∧ (m.get_cell p.1 p.2).visited = true := by
  unfold get_visited_neighbor_indices
  rw [List.mem_filter]

theorem mem_neighbor_inB {m : Map} {i j : Nat} (hin : m.inB (i, j))
    {p : Coord} (hp : p ∈ m.get_neighbor_indices i j) : m.inB p := by
  obtain ⟨h1, h2⟩ := hin
  rw [mem_get_neighbor_indices] at hp
  rcases hp with ⟨h, rfl⟩ | ⟨h, rfl⟩ | ⟨h, rfl⟩ | ⟨h, rfl⟩ <;>
    exact ⟨by omega, by omega⟩

theorem neighbor_mem_symm {m : Map} {i j : Nat} (hin : m.inB (i, j))
    {p : Coord} (hp : p ∈ m.get_neighbor_indices i j) :
    (i, j) ∈ m.get_neighbor_indices p.1 p.2 := by
  obtain ⟨h1, h2⟩ := hin
  rw [mem_get_neighbor_indices] at hp
  rw [mem_get_neighbor_indices]
  rcases hp with ⟨h, rfl⟩ | ⟨h, rfl⟩ | ⟨h, rfl⟩ | ⟨h, rfl⟩
  · right; left
    constructor
    · omega
    · show (i, j) = (i - 1 + 1, j)
      rw [Nat.sub_add_cancel h]
  · left
    exact ⟨by omega, rfl⟩
  · right; right; right
    constructor
    · omega
    · show (i, j) = (i, j - 1 + 1)
      rw [Nat.sub_add_cancel h]
  · right; right; left
    exact ⟨by omega, rfl⟩

/-! ## Counting unvisited cells -/

/-- Number of unvisited cells in the terrain. -/
def countUnvisited (m : Map) : Nat :=
  m.terrain.countP (fun cl => !cl.visited)

theorem countUnvisited_le (m : Map) : m.countUnvisited ≤ m.terrain.length :=
  List.countP_le_length _

/-- A write that does not change the `visited` field of its target keeps
the unvisited count. -/
theorem countUnvisited_set_cell_pres (m : Map) (i j : Nat) (cl : Cell)
    (hcl : cl.visited = (m.get_cell i j).visited) :
    (m.set_cell i j cl).countUnvisited = m.countUnvisited := by
  unfold countUnvisited set_cell
  by_cases hlt : m.flat i j < m.terrain.length
  · rw [List.countP_set _ _ _ _ hlt]
    have hgc : m.get_cell i j = m.terrain[m.flat i j] := by
      unfold get_cell
      rw [List.getD_eq_getElem?_getD, List.getElem?_eq_getElem hlt]
      rfl
    rw [hgc] at hcl
    have hble := List.boole_getElem_le_countP (fun cl => !cl.visited)
      m.terrain (m.flat i j) hlt
    rw [show (!cl.visited) = (!m.terrain[m.flat i j].visited) by rw [hcl]]
    omega
  · rw [List.set_eq_of_length_le (Nat.le_of_not_lt hlt)]

/-- Marking an unvisited existing cell decreases the unvisited count by
exactly one. -/
theorem countUnvisited_mark_unvisited (m : Map) (i j : Nat)
    (hlt : m.flat i j < m.terrain.length)
    (hnv : (m.getC (m.flat i j)).visited = false) :
    (m.mark_visited i j).countUnvisited + 1 = m.countUnvisited := by
  unfold countUnvisited mark_visited set_cell
  rw [List.countP_set _ _ _ _ hlt]
  have hgc : m.getC (m.flat i j) = m.terrain[m.flat i j] := by
    unfold getC
    rw [List.getD_eq_getElem?_getD, List.getElem?_eq_getElem hlt]
    rfl
  rw [hgc] at hnv
  have hble := List.boole_getElem_le_countP (fun cl => !cl.visited)
    m.terrain (m.flat i j) hlt
  have h1 : (if (!m.terrain[m.flat i j].visited) = true then 1 else 0) = 1 := by
    rw [hnv]; rfl
  have h2 : (if (!({ m.get_cell i j with visited := true } : Cell).visited) = true
      then 1 else 0) = 0 := rfl
  rw [h1, h2]
  rw [h1] at hble
  omega

theorem countUnvisited_mark_mono (m : Map) (i j : Nat) :
    (m.mark_visited i j).countUnvisited ≤ m.countUnvisited := by
  unfold countUnvisited mark_visited set_cell
  by_cases hlt : m.flat i j < m.terrain.length
  · rw [List.countP_set _ _ _ _ hlt]
    have h2 : (if (!({ m.get_cell i j with visited := true } : Cell).visited) = true
        then 1 else 0) = 0 := rfl
    rw [h2]
    omega
  · rw [List.set_eq_of_length_le (Nat.le_of_not_lt hlt)]

theorem countUnvisited_set_traversal (m : Map) (i j t : Nat) :
    (m.set_traversal i j t).countUnvisited = m.countUnvisited :=
  countUnvisited_set_cell_pres m i j _ rfl

theorem countUnvisited_write_n (m : Map) (i j : Nat) :
    (m.write_n i j).countUnvisited = m.countUnvisited :=
  countUnvisited_set_cell_pres m i j _ rfl

theorem countUnvisited_write_s (m : Map) (i j : Nat) :
    (m.write_s i j).countUnvisited = m.countUnvisited :=
  countUnvisited_set_cell_pres m i j _ rfl

theorem countUnvisited_write_e (m : Map) (i j : Nat) :
    (m.write_e i j).countUnvisited = m.countUnvisited :=
  countUnvisited_set_cell_pres m i j _ rfl

theorem countUnvisited_write_w (m : Map) (i j : Nat) :
    (m.write_w i j).countUnvisited = m.countUnvisited :=
  countUnvisited_set_cell_pres m i j _ rfl

theorem countUnvisited_open_path_writes (m : Map) (toc fro : Coord) :
    (m.open_path_writes toc fro).countUnvisited = m.countUnvisited := by
  unfold open_path_writes
  split_ifs <;>
    simp [countUnvisited_write_n, countUnvisited_write_s,
      countUnvisited_write_e, countUnvisited_write_w]

theorem countUnvisited_open_path_between (m : Map) (toc fro : Coord) :
    (m.open_path_between toc fro).1.countUnvisited = m.countUnvisited := by
  unfold open_path_between
  split
  · exact countUnvisited_open_path_writes m toc fro
  · rfl

end Map

namespace Map

/-- The `recursive_backtracking` call pattern: open a passage from the
visited `toc` to `fro`, then immediately mark `fro` visited.  The mark
shields whatever the passage write did to `fro`. -/
theorem closedUnvisited_open_then_mark (m : Map) (toc fro : Coord)
    (h : m.closedUnvisited) (htoc : m.visitedAt toc) :
    ((m.open_path_between toc fro).1.mark_visited fro.1 fro.2).closedUnvisited := by
  unfold open_path_between
  by_cases hc : (m.get_neighbor_indices toc.1 toc.2).contains fro
  · rw [if_pos hc]
    show ((m.open_path_writes toc fro).mark_visited fro.1 fro.2).closedUnvisited
    have hmem : fro ∈ m.get_neighbor_indices toc.1 toc.2 := List.elem_iff.mp hc
    rw [mem_get_neighbor_indices] at hmem
    obtain ⟨i, j⟩ := toc
    rcases hmem with ⟨hpos, rfl⟩ | ⟨hlt2, rfl⟩ | ⟨hpos, rfl⟩ | ⟨hlt2, rfl⟩
    · obtain ⟨i₀, rfl⟩ : ∃ i₀, i = i₀ + 1 := ⟨i - 1, by omega⟩
      simp only [Nat.add_sub_cancel]
      rw [open_path_writes_up]
      exact closedUnvisited_set_then_mark (m.write_n (i₀ + 1) j) i₀ j _
        (closedUnvisited_write_visited m (i₀ + 1) j _ h rfl htoc)
    · rw [open_path_writes_down]
      exact closedUnvisited_set_then_mark (m.write_s i j) (i + 1) j _
        (closedUnvisited_write_visited m i j _ h rfl htoc)
    · obtain ⟨j₀, rfl⟩ : ∃ j₀, j = j₀ + 1 := ⟨j - 1, by omega⟩
      simp only [Nat.add_sub_cancel]
      rw [open_path_writes_left]
      exact closedUnvisited_set_then_mark (m.write_w i (j₀ + 1)) i j₀ _
        (closedUnvisited_write_visited m i (j₀ + 1) _ h rfl htoc)
    · rw [open_path_writes_right]
      exact closedUnvisited_set_then_mark (m.write_e i j) i (j + 1) _
        (closedUnvisited_write_visited m i j _ h rfl htoc)
  · rw [if_neg hc]
    exact closedUnvisited_mark_visited m fro.1 fro.2 h

end Map

/-- What a successful `backtrack_pop` returns: an element of the stack,
together with a strictly shorter remainder drawn from the stack. -/
theorem backtrack_pop_spec (m : Map) :
    ∀ (s : List Coord) (c : Coord) (rest : List Coord),
      backtrack_pop m s = some (c, rest) →
      c ∈ s ∧ rest.length < s.length ∧ ∀ p ∈ rest, p ∈ s := by
  intro s
  induction s with
  | nil => intro c rest h; cases h
  | cons a as ih =>
    intro c rest h
    unfold backtrack_pop at h
    split at h
    · obtain ⟨h1, h2, h3⟩ := ih c rest h
      exact ⟨List.mem_cons_of_mem a h1, by simpa using Nat.lt_succ_of_lt h2,
        fun p hp => List.mem_cons_of_mem a (h3 p hp)⟩
    · cases h
      exact ⟨List.mem_cons_self .., by simp,
        fun p hp => List.mem_cons_of_mem a hp⟩

/-! ## The `recursive_backtracking` loop invariant -/

open Map in
/-- Loop invariant of `recursive_backtracking`: the map stays well-formed,
the current cell and all stacked cells are in-bounds and visited, and
unvisited cells stay fully closed. -/
structure InvBT (st : BTState) : Prop where
  wf : st.map.WF
  cur_in : st.map.inB st.current
  cur_vis : st.map.visitedAt st.current
  stack_in : ∀ p ∈ st.stack, st.map.inB p
  stack_vis : ∀ p ∈ st.stack, st.map.visitedAt p
  closed : st.map.closedUnvisited

/-- Termination measure of the `recursive_backtracking` loop: twice the
number of unvisited cells plus the stack height. -/
def measBT (st : BTState) : Nat :=
  2 * st.map.countUnvisited + st.stack.length

open Map in
theorem invBT_next (rng : Rng) (st st' : BTState) (hI : InvBT st)
    (h : btStep rng st = .next st') : InvBT st' ∧ measBT st' < measBT st := by
  have hwf1 : (st.map.set_traversal st.current.1 st.current.2 0).WF :=
    WF_of (length_set_traversal ..) rfl hI.wf
  simp only [btStep] at h
  split at h
  · -- unvisited neighbors exhausted: backtrack
    split at h
    · cases h
    · rename_i c rest hpop
      cases h
      obtain ⟨hc_mem, hlen, hsub⟩ := backtrack_pop_spec _ _ _ _ hpop
      refine ⟨⟨hwf1, ?_, ?_, ?_, ?_, ?_⟩, ?_⟩
      · exact (inB_congr _ st.map rfl c).mpr (hI.stack_in c hc_mem)
      · exact (visitedAt_set_traversal st.map _ _ 0 c).mpr
          (hI.stack_vis c hc_mem)
      · intro p hp
        exact (inB_congr _ st.map rfl p).mpr (hI.stack_in p (hsub p hp))
      · intro p hp
        exact (visitedAt_set_traversal st.map _ _ 0 p).mpr
          (hI.stack_vis p (hsub p hp))
      · exact closedUnvisited_set_traversal st.map _ _ 0 hI.closed
      · unfold measBT
        dsimp only
        rw [countUnvisited_set_traversal]
        omega
  · -- progress: open a passage to a random unvisited neighbor
    split at h
    · cases h
    · rename_i idx hgr
      cases h
      set m1 := st.map.set_traversal st.current.1 st.current.2 0 with hm1
      set pot := m1.get_unvisited_neighbor_indices st.current.1 st.current.2
        with hpot
      set fro := pot.getD idx (0, 0) with hfro
      have hidx : idx < pot.length := gen_range_some hgr
      have hfro_pot : fro ∈ pot := getD_mem _ hidx
      have hfro_nb : fro ∈ m1.get_neighbor_indices st.current.1 st.current.2 ∧
          (m1.get_cell fro.1 fro.2).visited = false :=
        mem_unvisited_neighbors.mp hfro_pot
      have hcur_in1 : m1.inB st.current :=
        (inB_congr m1 st.map rfl st.current).mpr hI.cur_in
      have hfro_in1 : m1.inB fro := mem_neighbor_inB hcur_in1 hfro_nb.1
      set mo := (m1.open_path_between st.current fro).1 with hmo
      have hdim_o : mo.dimensions = m1.dimensions :=
        dimensions_open_path_between ..
      have hwf_o : mo.WF := WF_of (length_open_path_between ..) hdim_o hwf1
      have hfro_in_o : mo.inB fro := (inB_congr mo m1 hdim_o fro).mpr hfro_in1
      have hflt_o : mo.flat fro.1 fro.2 < mo.terrain.length :=
        flat_lt_length hwf_o hfro_in_o
      have hvisM : (mo.mark_visited fro.1 fro.2).visitedAt (fro.1, fro.2) :=
        visitedAt_mark_self mo fro.1 fro.2 hflt_o
      have hdim_M : (mo.mark_visited fro.1 fro.2).dimensions = m1.dimensions := by
        rw [dimensions_mark_visited, hdim_o]
      refine ⟨⟨?_, ?_, ?_, ?_, ?_, ?_⟩, ?_⟩
      · exact WF_of (length_mark_visited ..) rfl hwf_o
      · exact (inB_congr _ m1 hdim_M fro).mpr hfro_in1
      · exact hvisM
      · intro p hp
        rcases List.mem_cons.mp hp with rfl | hp'
        · exact (inB_congr _ m1 hdim_M fro).mpr hfro_in1
        · exact (inB_congr _ st.map (by rw [hdim_M]; rfl) p).mpr
            (hI.stack_in p hp')
      · intro p hp
        rcases List.mem_cons.mp hp with rfl | hp'
        · exact hvisM
        · refine visitedAt_mark_mono mo fro.1 fro.2 p ?_
          refine (visitedAt_open_path_between m1 st.current fro p).mpr ?_
          exact (visitedAt_set_traversal st.map _ _ 0 p).mpr
            (hI.stack_vis p hp')
      · exact closedUnvisited_open_then_mark m1 st.current fro
          (closedUnvisited_set_traversal st.map _ _ 0 hI.closed)
          ((visitedAt_set_traversal st.map _ _ 0 st.current).mpr hI.cur_vis)
      · -- measure: one fresh cell got marked, the stack grew by one
        unfold measBT
        dsimp only
        have hflat_of : mo.flat fro.1 fro.2 = m1.flat fro.1 fro.2 := by
          unfold Map.flat
          rw [hdim_o]
        have hnv_o : (mo.getC (mo.flat fro.1 fro.2)).visited = false := by
          rw [hflat_of]
          rw [show (mo.getC (m1.flat fro.1 fro.2)).visited =
              (m1.getC (m1.flat fro.1 fro.2)).visited from
            visited_getC_open_path_between m1 st.current fro _]
          rw [← get_cell_eq_getC]
          exact hfro_nb.2
        have hdec := countUnvisited_mark_unvisited mo fro.1 fro.2 hflt_o hnv_o
        have hopen_eq := countUnvisited_open_path_between m1 st.current fro
        have htrav_eq := countUnvisited_set_traversal st.map st.current.1
          st.current.2 0
        simp only [List.length_cons]
        rw [← hmo] at hopen_eq
        rw [← hm1] at htrav_eq
        omega

open Map in
theorem invBT_done (rng : Rng) (st st' : BTState) (hI : InvBT st)
    (h : btStep rng st = .done st') : InvBT st' := by
  have hwf1 : (st.map.set_traversal st.current.1 st.current.2 0).WF :=
    WF_of (length_set_traversal ..) rfl hI.wf
  simp only [btStep] at h
  split at h
  · split at h
    · cases h
      refine ⟨hwf1, ?_, ?_, ?_, ?_, ?_⟩
      · exact (inB_congr _ st.map rfl st.current).mpr hI.cur_in
      · exact (visitedAt_set_traversal st.map _ _ 0 st.current).mpr hI.cur_vis
      · intro p hp; cases hp
      · intro p hp; cases hp
      · exact closedUnvisited_set_traversal st.map _ _ 0 hI.closed
    · cases h
  · split at h
    · cases h
    · cases h

open Map in
theorem invBT_nopanic (rng : Rng) (st : BTState) (_hI : InvBT st) :
    btStep rng st ≠ .panicked := by
  intro h
  simp only [btStep] at h
  split at h
  · split at h <;> cases h
  · rename_i hne
    split at h
    · rename_i hgr
      have hpos : 0 < (
          (st.map.set_traversal st.current.1 st.current.2 0).get_unvisited_neighbor_indices
            st.current.1 st.current.2).length := by
        rcases Nat.eq_zero_or_pos ((st.map.set_traversal st.current.1
            st.current.2 0).get_unvisited_neighbor_indices st.current.1
            st.current.2).length with hz | hp
        · exact absurd (List.isEmpty_iff_length_eq_zero.mpr hz) (by simpa using hne)
        · exact hp
      rw [gen_range_pos hpos] at hgr
      cases hgr
    · cases h

open Map in
theorem invBT_init (rng : Rng) (r c : Nat) (hr : 1 ≤ r) (hc : 1 ≤ c) :
    InvBT (btInit rng r c) := by
  have hin : (Map.init r c).inB (rng 0 % r, rng 1 % c) :=
    ⟨Nat.mod_lt _ hr, Nat.mod_lt _ hc⟩
  have hflt : (Map.init r c).flat (rng 0 % r) (rng 1 % c) <
      (Map.init r c).terrain.length :=
    flat_lt_length (WF_init r c) hin
  refine ⟨?_, ?_, ?_, ?_, ?_, ?_⟩
  · exact WF_of (length_mark_visited ..) rfl (WF_init r c)
  · exact (inB_congr _ (Map.init r c) rfl _).mpr hin
  · exact visitedAt_mark_self (Map.init r c) _ _ hflt
  · intro p hp; cases hp
  · intro p hp; cases hp
  · exact closedUnvisited_mark_visited _ _ _ (closedUnvisited_init r c)

open Map in
theorem measBT_init_le (rng : Rng) (r c : Nat) :
    measBT (btInit rng r c) ≤ 2 * (r * c) := by
  unfold measBT btInit
  dsimp only
  have h1 := countUnvisited_le
    ((Map.init r c).mark_visited (rng 0 % r) (rng 1 % c))
  rw [length_mark_visited] at h1
  have h2 : (Map.init r c).terrain.length = r * c := by
    unfold Map.init
    simp
  simp only [List.length_nil]
  omega

/-- With fuel `2*r*c + 1`, the backtracking loop always reaches its normal
exit, in a state still satisfying the invariant. -/
theorem btRun_reaches_done (rng : Rng) (r c : Nat) (hr : 1 ≤ r) (hc : 1 ≤ c) :
    ∃ st', btRun rng (2 * r * c + 1) (btInit rng r c) = .done st' ∧
      InvBT st' := by
  have hfuel : measBT (btInit rng r c) < 2 * r * c + 1 := by
    have h1 := measBT_init_le rng r c
    have h2 : 2 * r * c = 2 * (r * c) := by ring
    omega
  exact stepRun_done (btStep rng) InvBT measBT
    (fun st st' hI h => invBT_next rng st st' hI h)
    (fun st st' hI h => invBT_done rng st st' hI h)
    (fun st hI => invBT_nopanic rng st hI)
    (2 * r * c + 1) (btInit rng r c) (invBT_init rng r c hr hc) hfuel

/-- On nonempty dimensions `recursive_backtracking` returns normally, with
the final loop state satisfying the invariant. -/
theorem recursive_backtracking_eq (rng : Rng) (r c : Nat)
    (hr : 1 ≤ r) (hc : 1 ≤ c) :
    ∃ st', (Map.init r c).recursive_backtracking rng = some st'.map ∧
      InvBT st' := by
  obtain ⟨st', hrun, hI⟩ := btRun_reaches_done rng r c hr hc
  refine ⟨st', ?_, hI⟩
  have hthis : btRun rng (2 * r * c + 1) (btInit rng r c) = .done st' := hrun
  simp only [btInit] at hthis
  simp only [Map.recursive_backtracking, Map.dimensions_init,
    gen_range_pos hr, gen_range_pos hc, Map.dimensions_mark_visited]
  rw [hthis]

/-! ## The `randomized_prims` loop invariant -/

theorem getD_eq_getElem {α : Type} (l : List α) (idx : Nat) (d : α)
    (h : idx < l.length) : l.getD idx d = l[idx] := by
  rw [List.getD_eq_getElem?_getD, List.getElem?_eq_getElem h]
  rfl

theorem nodup_mem_eraseIdx_ne {l : List Coord} (hnd : l.Nodup) {k : Nat}
    (hk : k < l.length) {p : Coord} (hp : p ∈ l.eraseIdx k) : p ≠ l[k] := by
  rw [List.mem_eraseIdx_iff_getElem] at hp
  obtain ⟨i, hi, hik, hval⟩ := hp
  intro heq
  exact hik (hnd.getElem_inj_iff.mp (by rw [hval, heq]))

/-- The frontier-merging fold of `randomized_prims` adds only elements of
the scanned list. -/
theorem frontier_fold_mem :
    ∀ (l acc : List Coord) (p : Coord),
      p ∈ l.foldl
        (fun acc nb => if acc.contains nb then acc else acc ++ [nb]) acc →
      p ∈ acc ∨ p ∈ l := by
  intro l
  induction l with
  | nil => intro acc p hp; exact Or.inl hp
  | cons a as ih =>
    intro acc p hp
    rcases ih _ p hp with hmem | hmem
    · dsimp only at hmem
      split at hmem
      · exact Or.inl hmem
      · rcases List.mem_append.mp hmem with h' | h'
        · exact Or.inl h'
        · rw [List.mem_singleton] at h'
          exact Or.inr (h' ▸ List.mem_cons_self a as)
    · exact Or.inr (List.mem_cons_of_mem a hmem)

/-- The frontier-merging fold keeps the frontier duplicate-free. -/
theorem frontier_fold_nodup :
    ∀ (l acc : List Coord), acc.Nodup →
      (l.foldl
        (fun acc nb => if acc.contains nb then acc else acc ++ [nb]) acc).Nodup := by
  intro l
  induction l with
  | nil => intro acc h; exact h
  | cons a as ih =>
    intro acc h
    apply ih
    dsimp only
    split
    · exact h
    · rename_i hnc
      rw [List.nodup_append]
      refine ⟨h, List.nodup_singleton a, ?_⟩
      intro x hx hxa
      rw [List.mem_singleton] at hxa
      subst hxa
      exact hnc (List.elem_iff.mpr hx)

namespace Map

/-- A neighbor is never the cell itself. -/
theorem neighbor_ne_self {m : Map} {i j : Nat} {p : Coord}
    (hp : p ∈ m.get_neighbor_indices i j) : p ≠ (i, j) := by
  rw [mem_get_neighbor_indices] at hp
  rcases hp with ⟨h, rfl⟩ | ⟨h, rfl⟩ | ⟨h, rfl⟩ | ⟨h, rfl⟩ <;>
    · intro heq
      rw [Prod.ext_iff] at heq
      omega

/-- The neighbor list never repeats a coordinate. -/
theorem get_neighbor_indices_nodup (m : Map) (i j : Nat) :
    (m.get_neighbor_indices i j).Nodup := by
  unfold get_neighbor_indices
  split_ifs <;>
    simp_all [List.nodup_append, List.Disjoint, Prod.ext_iff] <;>
    omega

/-- Two distinct in-bounds coordinates have distinct flat indices. -/
theorem flat_ne_of_ne {m : Map} {p q : Coord} (hp : m.inB p) (hq : m.inB q)
    (hne : p ≠ q) : m.flat p.1 p.2 ≠ m.flat q.1 q.2 := by
  intro heq
  obtain ⟨h1, h2⟩ := flat_inj hp.2 hq.2 heq
  exact hne (Prod.ext h1 h2)

/-- Marking one cell leaves the `visited` flag of every other in-bounds
cell unchanged. -/
theorem visited_mark_other {m : Map} {p q : Coord} (hp : m.inB p)
    (hq : m.inB q) (hne : p ≠ q) :
    ((m.mark_visited q.1 q.2).get_cell p.1 p.2).visited =
      (m.get_cell p.1 p.2).visited := by
  rw [get_cell_eq_getC, get_cell_eq_getC, flat_mark_visited, getC_mark_visited]
  rw [if_neg]
  intro hcond
  exact flat_ne_of_ne hq hp hne.symm hcond.1

end Map

open Map in
/-- Loop invariant of `randomized_prims` (includes the property of claim
C10: every frontier cell is unvisited and touches a visited cell). -/
structure InvPrims (st : PrimsState) : Prop where
  wf : st.map.WF
  cur_in : st.map.inB st.current
  frontier_nodup : st.frontier.Nodup
  frontier_in : ∀ p ∈ st.frontier, st.map.inB p
  frontier_unvis : ∀ p ∈ st.frontier,
    (st.map.get_cell p.1 p.2).visited = false
  frontier_adj : ∀ p ∈ st.frontier,
    ∃ q ∈ st.map.get_neighbor_indices p.1 p.2, st.map.visitedAt q
  closed : st.map.closedUnvisited

namespace Map

theorem visited_get_cell_congr (m' m : Map)
    (hdim : m'.dimensions = m.dimensions)
    (hvis : ∀ d, (m'.getC d).visited = (m.getC d).visited) (i j : Nat) :
    (m'.get_cell i j).visited = (m.get_cell i j).visited := by
  rw [get_cell_eq_getC, get_cell_eq_getC, hvis,
    show m'.flat i j = m.flat i j by unfold flat; rw [hdim]]

theorem visited_get_cell_set_traversal (m : Map) (a b t i j : Nat) :
    ((m.set_traversal a b t).get_cell i j).visited = (m.get_cell i j).visited :=
  visited_get_cell_congr (m.set_traversal a b t) m rfl
    (fun d => visited_getC_set_traversal m a b t d) i j

theorem visited_get_cell_open_path_between (m : Map) (toc fro : Coord)
    (i j : Nat) :
    ((m.open_path_between toc fro).1.get_cell i j).visited =
      (m.get_cell i j).visited :=
  visited_get_cell_congr (m.open_path_between toc fro).1 m
    (dimensions_open_path_between ..)
    (fun d => visited_getC_open_path_between m toc fro d) i j

end Map

open Map in
theorem invPrims_next (rng : Rng) (st st' : PrimsState) (hI : InvPrims st)
    (h : primsStep rng st = .next st') :
    InvPrims st' ∧ st'.map.countUnvisited < st.map.countUnvisited := by
  simp only [primsStep] at h
  split at h
  · cases h
  · rename_i hempty
    split at h
    · cases h
    · rename_i ridx hgr1
      split at h
      · cases h
      · rename_i pidx hgr2
        split at h
        · cases h
        · cases h
          set m1 := st.map.set_traversal st.current.1 st.current.2 0 with hm1
          set cur := st.frontier.getD ridx (0, 0) with hcur
          set fr1 := st.frontier.eraseIdx ridx with hfr1
          set m2 := m1.mark_visited cur.1 cur.2 with hm2
          set pot := m2.get_visited_neighbor_indices cur.1 cur.2 with hpot
          set potF := m2.get_unvisited_neighbor_indices cur.1 cur.2 with hpotF
          set fro := pot.getD pidx (0, 0) with hfro
          set m3 := (m2.open_path_between cur fro).1 with hm3
          have hridx : ridx < st.frontier.length := gen_range_some hgr1
          have hcur_mem : cur ∈ st.frontier := getD_mem _ hridx
          have hcur_in : st.map.inB cur := hI.frontier_in cur hcur_mem
          have hcur_unvis : (st.map.get_cell cur.1 cur.2).visited = false :=
            hI.frontier_unvis cur hcur_mem
          have hwf1 : m1.WF := WF_of (length_set_traversal ..) rfl hI.wf
          have hwf2 : m2.WF := WF_of (length_mark_visited ..) rfl hwf1
          have hdim3 : m3.dimensions = m2.dimensions :=
            dimensions_open_path_between ..
          have hwf3 : m3.WF := WF_of (length_open_path_between ..) hdim3 hwf2
          have hcur_in1 : m1.inB cur := (inB_congr m1 st.map rfl cur).mpr hcur_in
          have hcur_in2 : m2.inB cur := (inB_congr m2 st.map rfl cur).mpr hcur_in
          have hcur_vis2 : m2.visitedAt cur :=
            visitedAt_mark_self m1 cur.1 cur.2 (flat_lt_length hwf1 hcur_in1)
          have hpidx : pidx < pot.length := gen_range_some hgr2
          have hfro_pot : fro ∈ pot := getD_mem _ hpidx
          have hfro_spec := mem_visited_neighbors.mp hfro_pot
          have hfro_in2 : m2.inB fro := mem_neighbor_inB hcur_in2 hfro_spec.1
          have hfro_vis2 : m2.visitedAt fro := hfro_spec.2
          have hcl2 : m2.closedUnvisited :=
            closedUnvisited_mark_visited m1 cur.1 cur.2
              (closedUnvisited_set_traversal st.map _ _ 0 hI.closed)
          have hvis3 : ∀ p : Coord, m2.visitedAt p → m3.visitedAt p :=
            fun p hp => (visitedAt_open_path_between m2 cur fro p).mpr hp
          have hvis12 : ∀ p : Coord, st.map.visitedAt p → m2.visitedAt p :=
            fun p hp => visitedAt_mark_mono m1 cur.1 cur.2 p
              ((visitedAt_set_traversal st.map _ _ 0 p).mpr hp)
          refine ⟨⟨hwf3, ?_, ?_, ?_, ?_, ?_, ?_⟩, ?_⟩
          · exact (inB_congr m3 m2 hdim3 cur).mpr hcur_in2
          · exact frontier_fold_nodup potF fr1
              (hI.frontier_nodup.sublist (List.eraseIdx_sublist ..))
          · intro p hp
            rcases frontier_fold_mem potF fr1 p hp with hp' | hp'
            · have : st.map.inB p :=
                hI.frontier_in p ((List.eraseIdx_sublist ..).mem hp')
              exact (inB_congr m3 st.map (by rw [hdim3]; rfl) p).mpr this
            · have : m2.inB p :=
                mem_neighbor_inB hcur_in2 (mem_unvisited_neighbors.mp hp').1
              exact (inB_congr m3 m2 hdim3 p).mpr this
          · intro p hp
            rcases frontier_fold_mem potF fr1 p hp with hp' | hp'
            · have hpmem : p ∈ st.frontier := (List.eraseIdx_sublist ..).mem hp'
              have hpne : p ≠ cur := by
                rw [hcur, getD_eq_getElem _ _ _ hridx]
                exact nodup_mem_eraseIdx_ne hI.frontier_nodup hridx hp'
              have hpin1 : m1.inB p :=
                (inB_congr m1 st.map rfl p).mpr (hI.frontier_in p hpmem)
              rw [show ((m3.get_cell p.1 p.2).visited =
                  (m2.get_cell p.1 p.2).visited) from
                visited_get_cell_open_path_between m2 cur fro p.1 p.2]
              rw [show m2 = m1.mark_visited cur.1 cur.2 from rfl]
              rw [visited_mark_other hpin1 hcur_in1 hpne]
              rw [visited_get_cell_set_traversal]
              exact hI.frontier_unvis p hpmem
            · rw [show ((m3.get_cell p.1 p.2).visited =
                  (m2.get_cell p.1 p.2).visited) from
                visited_get_cell_open_path_between m2 cur fro p.1 p.2]
              exact (mem_unvisited_neighbors.mp hp').2
          · intro p hp
            rcases frontier_fold_mem potF fr1 p hp with hp' | hp'
            · obtain ⟨q, hqmem, hqvis⟩ :=
                hI.frontier_adj p ((List.eraseIdx_sublist ..).mem hp')
              refine ⟨q, ?_, hvis3 q (hvis12 q hqvis)⟩
              rw [neighbors_congr m3 st.map (by rw [hdim3]; rfl)]
              exact hqmem
            · refine ⟨cur, ?_, hvis3 cur hcur_vis2⟩
              have := neighbor_mem_symm hcur_in2
                (mem_unvisited_neighbors.mp hp').1
              rw [neighbors_congr m3 m2 hdim3]
              exact this
          · exact closedUnvisited_open_visited m2 cur fro hcl2 hcur_vis2
              hfro_vis2
          · show m3.countUnvisited < st.map.countUnvisited
            have he1 : m3.countUnvisited = m2.countUnvisited :=
              countUnvisited_open_path_between m2 cur fro
            have he2 : m2.countUnvisited + 1 = m1.countUnvisited := by
              refine countUnvisited_mark_unvisited m1 cur.1 cur.2
                (flat_lt_length hwf1 hcur_in1) ?_
              rw [← get_cell_eq_getC, visited_get_cell_set_traversal]
              exact hcur_unvis
            have he3 : m1.countUnvisited = st.map.countUnvisited :=
              countUnvisited_set_traversal st.map _ _ 0
            omega

open Map in
theorem invPrims_done (rng : Rng) (st st' : PrimsState) (hI : InvPrims st)
    (h : primsStep rng st = .done st') : InvPrims st' := by
  simp only [primsStep] at h
  split at h
  · cases h; exact hI
  · rename_i hempty
    split at h
    · cases h
    · rename_i ridx hgr1
      split at h
      · cases h
      · rename_i pidx hgr2
        split at h
        · rename_i hbreak
          cases h
          set m1 := st.map.set_traversal st.current.1 st.current.2 0 with hm1
          set cur := st.frontier.getD ridx (0, 0) with hcur
          set fr1 := st.frontier.eraseIdx ridx with hfr1
          set m2 := m1.mark_visited cur.1 cur.2 with hm2
          set pot := m2.get_visited_neighbor_indices cur.1 cur.2 with hpot
          set fro := pot.getD pidx (0, 0) with hfro
          set m3 := (m2.open_path_between cur fro).1 with hm3
          have hridx : ridx < st.frontier.length := gen_range_some hgr1
          have hcur_mem : cur ∈ st.frontier := getD_mem _ hridx
          have hcur_in : st.map.inB cur := hI.frontier_in cur hcur_mem
          have hwf1 : m1.WF := WF_of (length_set_traversal ..) rfl hI.wf
          have hwf2 : m2.WF := WF_of (length_mark_visited ..) rfl hwf1
          have hdim3 : m3.dimensions = m2.dimensions :=
            dimensions_open_path_between ..
          have hwf3 : m3.WF := WF_of (length_open_path_between ..) hdim3 hwf2
          have hcur_in1 : m1.inB cur := (inB_congr m1 st.map rfl cur).mpr hcur_in
          have hcur_in2 : m2.inB cur := (inB_congr m2 st.map rfl cur).mpr hcur_in
          have hcur_vis2 : m2.visitedAt cur :=
            visitedAt_mark_self m1 cur.1 cur.2 (flat_lt_length hwf1 hcur_in1)
          have hpidx : pidx < pot.length := gen_range_some hgr2
          have hfro_pot : fro ∈ pot := getD_mem _ hpidx
          have hfro_spec := mem_visited_neighbors.mp hfro_pot
          have hfr1_empty : fr1 = [] := by
            rw [Bool.and_eq_true] at hbreak
            exact List.isEmpty_iff.mp hbreak.1
          refine ⟨hwf3, (inB_congr m3 m2 hdim3 cur).mpr hcur_in2,
            ?_, ?_, ?_, ?_, ?_⟩
          · rw [hfr1_empty]; exact List.nodup_nil
          · intro p hp; rw [hfr1_empty] at hp; cases hp
          · intro p hp; rw [hfr1_empty] at hp; cases hp
          · intro p hp; rw [hfr1_empty] at hp; cases hp
          · exact closedUnvisited_open_visited m2 cur fro
              (closedUnvisited_mark_visited m1 cur.1 cur.2
                (closedUnvisited_set_traversal st.map _ _ 0 hI.closed))
              hcur_vis2 hfro_spec.2
        · cases h

open Map in
theorem invPrims_nopanic (rng : Rng) (st : PrimsState) (hI : InvPrims st) :
    primsStep rng st ≠ .panicked := by
  intro h
  simp only [primsStep] at h
  split at h
  · cases h
  · rename_i hempty
    have hflen : 0 < st.frontier.length := by
      rcases Nat.eq_zero_or_pos st.frontier.length with hz | hp
      · exact absurd (List.isEmpty_iff_length_eq_zero.mpr hz)
          (by simpa using hempty)
      · exact hp
    split at h
    · rename_i hgr1
      rw [gen_range_pos hflen] at hgr1
      cases hgr1
    · rename_i ridx hgr1
      split at h
      · rename_i hgr2
        set m1 := st.map.set_traversal st.current.1 st.current.2 0 with hm1
        set cur := st.frontier.getD ridx (0, 0) with hcur
        set m2 := m1.mark_visited cur.1 cur.2 with hm2
        have hridx : ridx < st.frontier.length := gen_range_some hgr1
        have hcur_mem : cur ∈ st.frontier := getD_mem _ hridx
        obtain ⟨q, hqmem, hqvis⟩ := hI.frontier_adj cur hcur_mem
        have hqvis2 : m2.visitedAt q :=
          visitedAt_mark_mono m1 cur.1 cur.2 q
            ((visitedAt_set_traversal st.map _ _ 0 q).mpr hqvis)
        have hqmem2 : q ∈ m2.get_neighbor_indices cur.1 cur.2 := by
          rw [neighbors_congr m2 st.map rfl]
          exact hqmem
        have hqpot : q ∈ m2.get_visited_neighbor_indices cur.1 cur.2 :=
          mem_visited_neighbors.mpr ⟨hqmem2, hqvis2⟩
        have hpos : 0 < (m2.get_visited_neighbor_indices cur.1 cur.2).length :=
          List.length_pos.mpr (fun hnil => by rw [hnil] at hqpot; cases hqpot)
        rw [gen_range_pos hpos] at hgr2
        cases hgr2
      · split at h <;> cases h

open Map in
theorem invPrims_init (rng : Rng) (r c : Nat) (hr : 1 ≤ r) (hc : 1 ≤ c) :
    InvPrims (primsInit rng r c) := by
  have hin : (Map.init r c).inB (rng 0 % r, rng 1 % c) :=
    ⟨Nat.mod_lt _ hr, Nat.mod_lt _ hc⟩
  set s : Coord := (rng 0 % r, rng 1 % c) with hs
  set m := (Map.init r c).mark_visited s.1 s.2 with hm
  have hwf : m.WF := WF_of (length_mark_visited ..) rfl (WF_init r c)
  have hin' : m.inB s := (inB_congr m (Map.init r c) rfl s).mpr hin
  have hvis : m.visitedAt s :=
    visitedAt_mark_self (Map.init r c) s.1 s.2
      (flat_lt_length (WF_init r c) hin)
  have hnodup : (m.get_neighbor_indices s.1 s.2).Nodup :=
    get_neighbor_indices_nodup m s.1 s.2
  have hfin : ∀ p ∈ m.get_neighbor_indices s.1 s.2, m.inB p :=
    fun p hp => mem_neighbor_inB hin' hp
  have hunvis : ∀ p ∈ m.get_neighbor_indices s.1 s.2,
      (m.get_cell p.1 p.2).visited = false := by
    intro p hp
    have hpne : p ≠ s := neighbor_ne_self hp
    have hpin : m.inB p := mem_neighbor_inB hin' hp
    have hpin0 : (Map.init r c).inB p :=
      (inB_congr m (Map.init r c) rfl p).mp hpin
    rw [hm, visited_mark_other hpin0 hin hpne, get_cell_eq_getC, getC_init]
    rfl
  have hadj : ∀ p ∈ m.get_neighbor_indices s.1 s.2,
      ∃ q ∈ m.get_neighbor_indices p.1 p.2, m.visitedAt q := by
    intro p hp
    exact ⟨s, neighbor_mem_symm hin' hp, hvis⟩
  have hclosed : m.closedUnvisited :=
    closedUnvisited_mark_visited _ _ _ (closedUnvisited_init r c)
  exact ⟨hwf, hin', hnodup, hfin, hunvis, hadj, hclosed⟩

open Map in
/-- With fuel `r*c + 1` the Prim loop always reaches its normal exit in a
state still satisfying the invariant. -/
theorem primsRun_reaches_done (rng : Rng) (r c : Nat) (hr : 1 ≤ r) (hc : 1 ≤ c) :
    ∃ st', primsRun rng (r * c + 1) (primsInit rng r c) = .done st' ∧
      InvPrims st' := by
  have hfuel : (primsInit rng r c).map.countUnvisited < r * c + 1 := by
    have h1 := countUnvisited_le (primsInit rng r c).map
    have h2 : (primsInit rng r c).map.terrain.length = r * c := by
      simp [primsInit]
    omega
  exact stepRun_done (primsStep rng) InvPrims
    (fun st => st.map.countUnvisited)
    (fun st st' hI h => invPrims_next rng st st' hI h)
    (fun st st' hI h => invPrims_done rng st st' hI h)
    (fun st hI => invPrims_nopanic rng st hI)
    (r * c + 1) (primsInit rng r c) (invPrims_init rng r c hr hc) hfuel

open Map in
/-- On nonempty dimensions `randomized_prims` returns normally, with the
final loop state satisfying the invariant. -/
theorem randomized_prims_eq (rng : Rng) (r c : Nat)
    (hr : 1 ≤ r) (hc : 1 ≤ c) :
    ∃ st', (Map.init r c).randomized_prims rng = some st'.map ∧
      InvPrims st' := by
  obtain ⟨st', hrun, hI⟩ := primsRun_reaches_done rng r c hr hc
  refine ⟨st', ?_, hI⟩
  have hthis : primsRun rng (r * c + 1) (primsInit rng r c) = .done st' := hrun
  simp only [primsInit] at hthis
  simp only [Map.randomized_prims, Map.dimensions_init,
    gen_range_pos hr, gen_range_pos hc, Map.dimensions_mark_visited]
  rw [hthis]

/-! ## Termination of the search loop -/

namespace Map

/-- Every set directional flag points to a cell inside the grid (true of
every generated maze; the search loop relies on it). -/
def flagsInB (m : Map) : Prop :=
  ∀ i, i < m.dimensions.1 → ∀ j, j < m.dimensions.2 →
    ((m.get_cell i j).n = true → 0 < i) ∧
    ((m.get_cell i j).s = true → i + 1 < m.dimensions.1) ∧
    ((m.get_cell i j).e = true → j + 1 < m.dimensions.2) ∧
    ((m.get_cell i j).w = true → 0 < j)

instance (m : Map) : Decidable m.flagsInB := by
  unfold flagsInB; infer_instance

theorem mem_openNeighbors (m : Map) (c p : Coord) :
    p ∈ openNeighbors m c ↔
      ((m.get_cell c.1 c.2).n = true ∧ p = (c.1 - 1, c.2)) ∨
      ((m.get_cell c.1 c.2).s = true ∧ p = (c.1 + 1, c.2)) ∨
      ((m.get_cell c.1 c.2).e = true ∧ p = (c.1, c.2 + 1)) ∨
      ((m.get_cell c.1 c.2).w = true ∧ p = (c.1, c.2 - 1)) := by
  unfold openNeighbors
  rw [List.mem_append, List.mem_append, List.mem_append,
    mem_ite_singleton, mem_ite_singleton, mem_ite_singleton,
    mem_ite_singleton]
  tauto

theorem openNeighbors_inB {m : Map} (hf : m.flagsInB) {c : Coord}
    (hc : m.inB c) : ∀ p ∈ openNeighbors m c, m.inB p := by
  intro p hp
  obtain ⟨h1, h2⟩ := hc
  obtain ⟨hn, hs, he, hw⟩ := hf c.1 h1 c.2 h2
  rw [mem_openNeighbors] at hp
  rcases hp with ⟨hflag, rfl⟩ | ⟨hflag, rfl⟩ | ⟨hflag, rfl⟩ | ⟨hflag, rfl⟩
  · exact ⟨by omega, h2⟩
  · exact ⟨hs hflag, h2⟩
  · exact ⟨h1, he hflag⟩
  · exact ⟨h1, by omega⟩

end Map

theorem cfLookup_isSome_iff (cf : CameFrom) (c : Coord) :
    (cfLookup cf c).isSome ↔ c ∈ cf.map Prod.fst := by
  unfold cfLookup
  rw [Option.isSome_map', List.find?_isSome]
  simp only [List.mem_map, beq_iff_eq]

theorem length_le_of_nodup_lt (l : List Nat) (N : Nat) (hnd : l.Nodup)
    (hlt : ∀ x ∈ l, x < N) : l.length ≤ N := by
  have h1 : l.toFinset ⊆ Finset.range N :=
    fun x hx => Finset.mem_range.mpr (hlt x (List.mem_toFinset.mp hx))
  have h2 := Finset.card_le_card h1
  rw [List.toFinset_card_of_nodup hnd] at h2
  simpa using h2

open Map in
/-- The `came_from` keys are distinct in-bounds coordinates, so there are
at most `rows * cols` of them. -/
theorem cf_length_le (m : Map) (cf : CameFrom)
    (hnd : (cf.map Prod.fst).Nodup) (hin : ∀ kv ∈ cf, m.inB kv.1) :
    cf.length ≤ m.dimensions.1 * m.dimensions.2 := by
  have hmap : ((cf.map Prod.fst).map
      (fun p => p.1 * m.dimensions.2 + p.2)).Nodup := by
    refine List.Nodup.map_on ?_ hnd
    intro x hx y hy hxy
    obtain ⟨kx, hkx, rfl⟩ := List.mem_map.mp hx
    obtain ⟨ky, hky, rfl⟩ := List.mem_map.mp hy
    obtain ⟨e1, e2⟩ := flat_inj (hin kx hkx).2 (hin ky hky).2 hxy
    exact Prod.ext e1 e2
  have hlt : ∀ x ∈ (cf.map Prod.fst).map
      (fun p => p.1 * m.dimensions.2 + p.2),
      x < m.dimensions.1 * m.dimensions.2 := by
    intro x hx
    obtain ⟨p, hp, rfl⟩ := List.mem_map.mp hx
    obtain ⟨kv, hkv, rfl⟩ := List.mem_map.mp hp
    exact flat_lt (hin kv hkv).1 (hin kv hkv).2
  have := length_le_of_nodup_lt _ _ hmap hlt
  simpa using this

open Map in
/-- What the neighbor fold of one search iteration does to the frontier
and the `came_from` map. -/
theorem cfFold_spec (m : Map) (cur : Coord) :
    ∀ (nbrs fr : List Coord) (cf : CameFrom),
      (∀ p ∈ nbrs, m.inB p) → (∀ p ∈ fr, m.inB p) →
      (∀ kv ∈ cf, m.inB kv.1) → (cf.map Prod.fst).Nodup →
      (∀ p ∈ (nbrs.foldl (cfStep cur) (fr, cf)).1, m.inB p) ∧
      (∀ kv ∈ (nbrs.foldl (cfStep cur) (fr, cf)).2, m.inB kv.1) ∧
      ((nbrs.foldl (cfStep cur) (fr, cf)).2.map Prod.fst).Nodup ∧
      (nbrs.foldl (cfStep cur) (fr, cf)).1.length + cf.length =
        fr.length + (nbrs.foldl (cfStep cur) (fr, cf)).2.length := by
  intro nbrs
  induction nbrs with
  | nil => intro fr cf _ h2 h3 h4; exact ⟨h2, h3, h4, by simp⟩
  | cons nb rest ih =>
    intro fr cf h1 h2 h3 h4
    have hnb : m.inB nb := h1 nb (List.mem_cons_self ..)
    have h1' : ∀ p ∈ rest, m.inB p :=
      fun p hp => h1 p (List.mem_cons_of_mem nb hp)
    simp only [List.foldl_cons]
    by_cases hnone : (cfLookup cf nb).isSome
    · rw [show cfStep cur (fr, cf) nb = (fr, cf) from by
        unfold cfStep; rw [if_pos hnone]]
      exact ih fr cf h1' h2 h3 h4
    · rw [show cfStep cur (fr, cf) nb = (nb :: fr, (nb, cur) :: cf) from by
        unfold cfStep; rw [if_neg hnone]]
      have hnotkey : nb ∉ cf.map Prod.fst := by
        intro hmem
        exact hnone ((cfLookup_isSome_iff cf nb).mpr hmem)
      have h2' : ∀ p ∈ nb :: fr, m.inB p := by
        intro p hp
        rcases List.mem_cons.mp hp with rfl | hp'
        · exact hnb
        · exact h2 p hp'
      have h3' : ∀ kv ∈ (nb, cur) :: cf, m.inB kv.1 := by
        intro kv hkv
        rcases List.mem_cons.mp hkv with rfl | hkv'
        · exact hnb
        · exact h3 kv hkv'
      have h4' : (((nb, cur) :: cf).map Prod.fst).Nodup := by
        rw [List.map_cons, List.nodup_cons]
        exact ⟨hnotkey, h4⟩
      obtain ⟨g1, g2, g3, g4⟩ := ih (nb :: fr) ((nb, cur) :: cf) h1' h2' h3' h4'
      refine ⟨g1, g2, g3, ?_⟩
      simp only [List.length_cons] at g4
      omega

open Map in
/-- Search-loop invariant: frontier cells are in-bounds, `came_from` keys
are distinct and in-bounds. -/
def InvSearch (m : Map) (st : List Coord × CameFrom) : Prop :=
  (∀ p ∈ st.1, m.inB p) ∧ (∀ kv ∈ st.2, m.inB kv.1) ∧
    (st.2.map Prod.fst).Nodup

open Map in
/-- Search-loop measure: pending frontier entries plus undiscovered cells. -/
def measSearch (m : Map) (st : List Coord × CameFrom) : Nat :=
  st.1.length + (m.dimensions.1 * m.dimensions.2 - st.2.length)

open Map in
/-- The search loop pops one cell per iteration and its measure strictly
decreases, so it empties its frontier within the given fuel. -/
theorem searchRun_completes (m : Map) (hf : m.flagsInB) :
    ∀ fuel st, InvSearch m st → measSearch m st < fuel →
      ∃ cf, searchRun m fuel st = some cf ∧ InvSearch m ([], cf) := by
  intro fuel
  induction fuel with
  | zero => intro st _ hm; omega
  | succ n ih =>
    intro st hInv hm
    obtain ⟨fr, cf⟩ := st
    cases fr with
    | nil =>
      refine ⟨cf, ?_, ?_⟩
      · unfold searchRun searchStep
        rfl
      · exact ⟨fun p hp => absurd hp (List.not_mem_nil p), hInv.2.1, hInv.2.2⟩
    | cons cur rest =>
      obtain ⟨hfr_in, hcf_in, hcf_nd⟩ := hInv
      have hcur : m.inB cur := hfr_in cur (List.mem_cons_self ..)
      have hnbrs := openNeighbors_inB hf hcur
      have hrest : ∀ p ∈ rest, m.inB p :=
        fun p hp => hfr_in p (List.mem_cons_of_mem cur hp)
      obtain ⟨g1, g2, g3, g4⟩ :=
        cfFold_spec m cur (openNeighbors m cur) rest cf hnbrs hrest hcf_in hcf_nd
      set st' := (openNeighbors m cur).foldl (cfStep cur) (rest, cf) with hst'
      have hstep : searchStep m (cur :: rest, cf) = some st' := rfl
      have hInv' : InvSearch m st' := ⟨g1, g2, g3⟩
      have hkeys : st'.2.length ≤ m.dimensions.1 * m.dimensions.2 :=
        cf_length_le m st'.2 g3 g2
      have hmeas : measSearch m st' < measSearch m (cur :: rest, cf) := by
        unfold measSearch
        simp only [List.length_cons]
        omega
      obtain ⟨cfF, hrunF, hInvF⟩ := ih st' hInv' (by omega)
      refine ⟨cfF, ?_, hInvF⟩
      unfold searchRun
      rw [hstep]
      exact hrunF

/-! ## Dimension preservation along the generator loops -/

namespace Map

/-- Number of visited (committed) cells. -/
def countVisited (m : Map) : Nat :=
  m.terrain.countP (fun cl => cl.visited)

theorem countVisited_le (m : Map) : m.countVisited ≤ m.terrain.length :=
  List.countP_le_length _

end Map

theorem btStep_dimensions (rng : Rng) (st st' : BTState)
    (h : btStep rng st = .next st' ∨ btStep rng st = .done st') :
    st'.map.dimensions = st.map.dimensions := by
  rcases h with h | h <;>
  · simp only [btStep] at h
    split at h
    · split at h <;> ((try cases h); (try rfl))
    · split at h <;> ((try cases h); (try simp))

theorem primsStep_dimensions (rng : Rng) (st st' : PrimsState)
    (h : primsStep rng st = .next st' ∨ primsStep rng st = .done st') :
    st'.map.dimensions = st.map.dimensions := by
  rcases h with h | h <;>
  · simp only [primsStep] at h
    split at h
    · (try cases h); (try rfl)
    · split at h <;>
        first
        | cases h
        | (split at h <;>
            first
            | cases h
            | (split at h <;> (cases h; (try simp))))

theorem btRun_dimensions (rng : Rng) :
    ∀ (fuel : Nat) (st st' : BTState),
      btRun rng fuel st = .done st' → st'.map.dimensions = st.map.dimensions := by
  intro fuel
  induction fuel with
  | zero => intro st st' h; cases h
  | succ n ih =>
    intro st st' h
    unfold btRun stepRun at h
    cases hstep : btStep rng st with
    | next st2 =>
      rw [hstep] at h
      exact (ih st2 st' h).trans (btStep_dimensions rng st st2 (Or.inl hstep))
    | done st2 =>
      rw [hstep] at h
      cases h
      exact btStep_dimensions rng st st' (Or.inr hstep)
    | panicked => rw [hstep] at h; cases h

theorem primsRun_dimensions (rng : Rng) :
    ∀ (fuel : Nat) (st st' : PrimsState),
      primsRun rng fuel st = .done st' →
        st'.map.dimensions = st.map.dimensions := by
  intro fuel
  induction fuel with
  | zero => intro st st' h; cases h
  | succ n ih =>
    intro st st' h
    unfold primsRun stepRun at h
    cases hstep : primsStep rng st with
    | next st2 =>
      rw [hstep] at h
      exact (ih st2 st' h).trans (primsStep_dimensions rng st st2 (Or.inl hstep))
    | done st2 =>
      rw [hstep] at h
      cases h
      exact primsStep_dimensions rng st st' (Or.inr hstep)
    | panicked => rw [hstep] at h; cases h

/-! # The claims -/

/-- A concrete solved 1×2 maze: both cells visited, the single passage
between `(0,0)` and `(0,1)` open. -/
def maze1x2 : Map :=
  ((((Map.init 1 2).mark_visited 0 0).mark_visited 0 1).open_path_between
    (0, 0) (0, 1)).1

/-- Number of open passages: each passage is counted once, at the south or
east flag of its upper/left endpoint. -/
def passage_count (m : Map) : Nat :=
  (m.terrain.map
    (fun cl => (if cl.s then 1 else 0) + (if cl.e then 1 else 0))).sum

/-- Claim C1 (code bug): on the 1×2 maze whose single passage joins the
start `(0,0)` to the end `(0,1)`, `breadth_first` returns `[(0,1), (0,0)]`
— the sequence begins at the **end** and finishes at the **start**,
because the reconstruction loop never reverses the accumulated path,
contradicting the claim (and the source's own comment that the path runs
from `from` to `to`). -/
theorem c1_path_runs_end_to_start :
    breadth_first maze1x2 (0, 0) (0, 1) = some [(0, 1), (0, 0)] := by decide

/-- Claim C2 (code bug): running `recursive_backtracking` on a 1×3 grid
with a randomness source that starts at the middle cell `(0,1)` and first
picks the right neighbor terminates with cell `(0,0)` still unvisited —
the algorithm never pushes the start cell (nor re-pushes a resumed cell),
so coverage fails. -/
theorem c2_backtracking_misses_cells :
    ((Map.init 1 3).recursive_backtracking (fun _ => 1)).map
      (fun m => (m.get_cell 0 0).visited) = some false := by decide

/-- Claim C3 (code bug): the same 1×3 run of `recursive_backtracking`
terminates having opened exactly 1 passage, not `1*3 - 1 = 2`, so the
result is not a spanning tree (cell `(0,0)` is disconnected). -/
theorem c3_backtracking_not_spanning_tree :
    ((Map.init 1 3).recursive_backtracking (fun _ => 1)).map passage_count =
      some 1 ∧ (1 : Nat) ≠ 1 * 3 - 1 := by decide

/-- Claim C4 (confirmed): in every state reachable from a freshly
constructed grid through `open_path_between` / `mark_visited` (and the
generators' `traversal_index` writes), and through whole iterations of
either generator, the passage flags are symmetric: for any two adjacent
cells the flag of one toward the other equals the flag of the other back. -/
theorem c4_symmetry_invariant (m : Map) (h : Reachable m) :
    m.symmetricOpen :=
  (reachable_SWF h).2

/-- Witness for C4 at a concrete reachable state. -/
theorem c4_witness :
    (((Map.init 2 2).open_path_between (0, 0) (0, 1)).1).symmetricOpen :=
  c4_symmetry_invariant _
    (Reachable.open_path (Map.init 2 2) (0, 0) (0, 1) (Reachable.init 2 2))

/-- Counterexample for claim C5 as stated: the `src/main.rs` duplicate of
`open_path_between` has no adjacency check, so on the non-adjacent pair
`(0,0)`, `(2,0)` of a 3×1 grid it silently sets flags (mutating the grid)
instead of failing. -/
theorem c5_counterexample :
    ((MainRs.open_path_between (Map.init 3 1) (0, 0) (2, 0)).get_cell 0 0).s
        = true ∧
      ((Map.init 3 1).get_cell 0 0).s = false := by decide

/-- Claim C5 (corrected to the `src/map.rs` implementation): `map.rs`'s
`open_path_between` on a non-adjacent pair panics with the
invalid-argument message, and since the check precedes every write the
grid state at the panic is exactly the input grid. -/
theorem c5_maprs_rejects_nonadjacent (m : Map) (toc fro : Coord)
    (h : fro ∉ m.get_neighbor_indices toc.1 toc.2) :
    m.open_path_between toc fro =
      (m, Except.error
        "Attempting to open a path between non-adjacent cells") := by
  unfold Map.open_path_between
  rw [if_neg (fun hc => h (List.elem_iff.mp hc))]

/-- Witness for C5 at a concrete non-adjacent pair. -/
theorem c5_witness :
    (2, 0) ∉ (Map.init 3 1).get_neighbor_indices 0 0 ∧
      (Map.init 3 1).open_path_between (0, 0) (2, 0) =
        (Map.init 3 1, Except.error
          "Attempting to open a path between non-adjacent cells") :=
  ⟨by decide, c5_maprs_rejects_nonadjacent (Map.init 3 1) (0, 0) (2, 0)
    (by decide)⟩

/-- Claim C6 (code bug): on a 1×2 grid with no open passages the solver
hits the missing `came_from` key for the unreachable end cell — the
modelled `came_from[&current_indices]` panic (`none`), not a recoverable
empty result (the Rust function returns a bare `Vec` and crashes). -/
theorem c6_solver_panics_on_unreachable :
    breadth_first (Map.init 1 2) (0, 0) (0, 1) = none := by decide

/-- Counterexample for claim C7 as stated: `Map::new` does not return an
all-unvisited grid — already on a 1×1 grid the returned cell is visited,
because `new` runs the backtracking generator before returning. -/
theorem c7_counterexample :
    (Map.new (fun _ => 1) 1 1).map (fun m => (m.get_cell 0 0).visited) =
      some true := by decide

/-- Claim C7 (corrected): `new(rows, cols)` first builds a fresh grid of
`rows*cols` cells that are all unvisited and fully closed, then
immediately runs `recursive_backtracking` on it and returns the generated
maze (which, for `rows, cols ≥ 1`, contains at least one visited cell);
with `rows = 0` or `cols = 0` it does not return a construction error —
generation panics sampling a random cell from an empty range (`none`). -/
theorem c7_new_populates (rng : Rng) (r c : Nat) :
    (∀ d, d < r * c → (Map.init r c).getC d = Cell.new) ∧
    (Map.new rng r c = (Map.init r c).recursive_backtracking rng) ∧
    ((r = 0 ∨ c = 0) → Map.new rng r c = none) ∧
    (1 ≤ r → 1 ≤ c → ∃ m', Map.new rng r c = some m' ∧
      ∃ p : Coord, m'.inB p ∧ m'.visitedAt p) := by
  refine ⟨fun d _ => Map.getC_init r c d, rfl, ?_, ?_⟩
  · intro h
    unfold Map.new Map.recursive_backtracking
    rcases h with rfl | rfl
    · rfl
    · simp only [Map.dimensions_init]
      cases hg : gen_range rng 0 r <;> rfl
  · intro hr hc
    obtain ⟨st', heq, hI⟩ := recursive_backtracking_eq rng r c hr hc
    exact ⟨st'.map, heq, st'.current, hI.cur_in, hI.cur_vis⟩

/-- Witness for C7 at concrete dimensions. -/
theorem c7_witness :
    Map.new (fun _ => 1) 0 1 = none ∧
      ∃ m', Map.new (fun _ => 1) 1 1 = some m' ∧
        ∃ p : Coord, m'.inB p ∧ m'.visitedAt p :=
  ⟨(c7_new_populates (fun _ => 1) 0 1).2.2.1 (Or.inl rfl),
   (c7_new_populates (fun _ => 1) 1 1).2.2.2 (by decide) (by decide)⟩

/-- Claim C8 (confirmed): in every state reached by either generator —
after any number of loop iterations, and in the final returned maze —
every cell with `visited = false` has all four directional flags `false`. -/
theorem c8_unvisited_cells_closed (rng : Rng) (r c n : Nat)
    (hr : 1 ≤ r) (hc : 1 ≤ c) :
    (stepIter (btStep rng) n (btInit rng r c)).map.closedUnvisited ∧
    (stepIter (primsStep rng) n (primsInit rng r c)).map.closedUnvisited ∧
    (∀ m', (Map.init r c).recursive_backtracking rng = some m' →
      m'.closedUnvisited) ∧
    (∀ m', (Map.init r c).randomized_prims rng = some m' →
      m'.closedUnvisited) := by
  refine ⟨?_, ?_, ?_, ?_⟩
  · exact (stepIter_inv (btStep rng) InvBT
      (fun st st' hI h => (invBT_next rng st st' hI h).1) n _
      (invBT_init rng r c hr hc)).closed
  · exact (stepIter_inv (primsStep rng) InvPrims
      (fun st st' hI h => (invPrims_next rng st st' hI h).1) n _
      (invPrims_init rng r c hr hc)).closed
  · intro m' heq
    obtain ⟨st', heq2, hI⟩ := recursive_backtracking_eq rng r c hr hc
    rw [heq] at heq2
    obtain rfl := Option.some.inj heq2
    exact hI.closed
  · intro m' heq
    obtain ⟨st', heq2, hI⟩ := randomized_prims_eq rng r c hr hc
    rw [heq] at heq2
    obtain rfl := Option.some.inj heq2
    exact hI.closed

/-- Witness for C8 on a concrete 1×2 run. -/
theorem c8_witness :
    (stepIter (btStep (fun _ => 0)) 2 (btInit (fun _ => 0) 1 2)).map.closedUnvisited ∧
    (stepIter (primsStep (fun _ => 0)) 2 (primsInit (fun _ => 0) 1 2)).map.closedUnvisited :=
  ⟨(c8_unvisited_cells_closed (fun _ => 0) 1 2 2 (by decide) (by decide)).1,
   (c8_unvisited_cells_closed (fun _ => 0) 1 2 2 (by decide) (by decide)).2.1⟩

/-- Claim C9 (confirmed): for every randomness source on an `r×c` grid
(`r, c ≥ 1`), `recursive_backtracking` exits its loop within `2*r*c`
iterations and `randomized_prims` within `r*c`, each having marked at most
`r*c` cells visited; and on any map whose flags stay in bounds the search
loop of `breadth_first` empties its frontier within `r*c` expansions. -/
theorem c9_bounded_termination (rng : Rng) (r c : Nat)
    (hr : 1 ≤ r) (hc : 1 ≤ c) :
    (∃ st', btRun rng (2 * r * c + 1) (btInit rng r c) = .done st' ∧
      st'.map.countVisited ≤ r * c) ∧
    (∃ st', primsRun rng (r * c + 1) (primsInit rng r c) = .done st' ∧
      st'.map.countVisited ≤ r * c) ∧
    (∀ (m : Map) (fr : Coord), m.flagsInB → m.dimensions = (r, c) →
      m.inB fr →
      ∃ cf, searchRun m (r * c + 1) ([fr], [(fr, fr)]) = some cf) := by
  refine ⟨?_, ?_, ?_⟩
  · obtain ⟨st', hdone, hI⟩ := btRun_reaches_done rng r c hr hc
    refine ⟨st', hdone, ?_⟩
    have hwf := hI.wf
    unfold Map.WF at hwf
    have hlen : st'.map.terrain.length = r * c := by
      rw [hwf, btRun_dimensions rng _ _ _ hdone]
      rfl
    calc st'.map.countVisited ≤ st'.map.terrain.length :=
          Map.countVisited_le _
      _ = r * c := hlen
  · obtain ⟨st', hdone, hI⟩ := primsRun_reaches_done rng r c hr hc
    refine ⟨st', hdone, ?_⟩
    have hwf := hI.wf
    unfold Map.WF at hwf
    have hlen : st'.map.terrain.length = r * c := by
      rw [hwf, primsRun_dimensions rng _ _ _ hdone]
      rfl
    calc st'.map.countVisited ≤ st'.map.terrain.length :=
          Map.countVisited_le _
      _ = r * c := hlen
  · intro m fr hf hdim hin
    have hInv : InvSearch m ([fr], [(fr, fr)]) := by
      refine ⟨?_, ?_, ?_⟩
      · intro p hp
        rw [List.mem_singleton] at hp
        rw [hp]
        exact hin
      · intro kv hkv
        rw [List.mem_singleton] at hkv
        rw [hkv]
        exact hin
      · exact List.nodup_singleton fr
    have hrc : 1 ≤ r * c := by
      have := Nat.mul_le_mul hr hc
      simpa using this
    have hmeas : measSearch m ([fr], [(fr, fr)]) < r * c + 1 := by
      unfold measSearch
      rw [hdim]
      simp only [List.length_singleton]
      omega
    obtain ⟨cf, hcf, _⟩ :=
      searchRun_completes m hf (r * c + 1) ([fr], [(fr, fr)]) hInv hmeas
    exact ⟨cf, hcf⟩

/-- Witness for C9 on a concrete 1×2 instance. -/
theorem c9_witness :
    (∃ st', btRun (fun _ => 0) (2 * 1 * 2 + 1) (btInit (fun _ => 0) 1 2) =
        .done st' ∧ st'.map.countVisited ≤ 1 * 2) ∧
    ∃ cf, searchRun maze1x2 (1 * 2 + 1) ([(0, 0)], [((0, 0), (0, 0))]) =
      some cf :=
  ⟨(c9_bounded_termination (fun _ => 0) 1 2 (by decide) (by decide)).1,
   (c9_bounded_termination (fun _ => 0) 1 2 (by decide) (by decide)).2.2
     maze1x2 (0, 0) (by decide) (by decide) (by decide)⟩

/-- Claim C10 (confirmed): at every iteration of `randomized_prims` on a
freshly constructed grid, every frontier coordinate is unvisited and has
at least one visited neighbor, and consequently the next step never hits
the panic of sampling from an empty list of visited neighbors. -/
theorem c10_frontier_safe (rng : Rng) (r c n : Nat)
    (hr : 1 ≤ r) (hc : 1 ≤ c) :
    (∀ p ∈ (stepIter (primsStep rng) n (primsInit rng r c)).frontier,
      ((stepIter (primsStep rng) n
          (primsInit rng r c)).map.get_cell p.1 p.2).visited = false ∧
      ∃ q ∈ (stepIter (primsStep rng) n
          (primsInit rng r c)).map.get_neighbor_indices p.1 p.2,
        (stepIter (primsStep rng) n (primsInit rng r c)).map.visitedAt q) ∧
    primsStep rng (stepIter (primsStep rng) n (primsInit rng r c)) ≠
      .panicked := by
  have hI := stepIter_inv (primsStep rng) InvPrims
    (fun st st' hI h => (invPrims_next rng st st' hI h).1) n _
    (invPrims_init rng r c hr hc)
  exact ⟨fun p hp => ⟨hI.frontier_unvis p hp, hI.frontier_adj p hp⟩,
    invPrims_nopanic rng _ hI⟩

/-- Witness for C10 on a concrete 1×2 instance. -/
theorem c10_witness :
    primsStep (fun _ => 0)
        (stepIter (primsStep (fun _ => 0)) 0 (primsInit (fun _ => 0) 1 2)) ≠
      StepRes.panicked :=
  (c10_frontier_safe (fun _ => 0) 1 2 0 (by decide) (by decide)).2

end Mazes
